import Mathlib

/-!
Shallow embedding of the ´-language interpreter and JIT experiment
(`src/main.rs`): the parser (`parse_int`, `parse`), the interpreter (`run`),
the baseline x64 compiler (`jit`) and the register-caching compiler (`jit2`),
together with the semantics of the machine code the two compilers emit.

Machine integers (`isize`, `usize`) are modelled by their 64-bit patterns,
naturals below `2 ^ 64`, with wrapping arithmetic made explicit (the program
is built in release mode, where Rust integer arithmetic wraps).  Unchecked
tape accesses (`get_unchecked`) outside the 65536-cell tape are undefined
behaviour in the source; the embedding makes them an explicit `ub` outcome.
Rust panics during code generation (`todo!()`, failing `try_into().unwrap()`,
out-of-bounds label indexing) are explicit compile errors.
-/

namespace Tick

/-- Number of 64-bit patterns, `2 ^ 64`. -/
def W : Nat := 18446744073709551616

/-- A 64-bit machine word, represented by its bit pattern. -/
abbrev Word := Nat

/-- Reduce a natural number to its 64-bit pattern. -/
def wrap (x : Nat) : Word := x % W

/-- Wrapping 64-bit addition (`+=` on `isize`/`usize`, release mode). -/
def wadd (x y : Word) : Word := (x + y) % W

/-- The signed (`isize`) value of a 64-bit pattern. -/
def toInt (w : Word) : Int :=
  if w < 9223372036854775808 then (w : Int) else (w : Int) - 18446744073709551616

/-- Success of `i32::try_from` on the signed value of the pattern `w`
(used by the compilers for `(addr * 8).try_into().unwrap()` offsets). -/
def fitsI32 (w : Word) : Bool :=
  decide (w < 2147483648) || decide (18446744071562067968 ≤ w)

/-- Success of `i8::try_from` on the signed value of the pattern `w`. -/
def fitsI8 (w : Word) : Bool :=
  decide (w < 128) || decide (18446744073709551488 ≤ w)

/-- The four instruction forms (`enum Op` of the source): set-immediate,
set-indirect, branch-on-immediate, branch-on-indirect. -/
inductive Op where
  | SetV (a b : Word)
  | SetA (a b : Word)
  | JmpV (a b : Word)
  | JmpA (a b : Word)
deriving DecidableEq

/-- Is the byte an ASCII decimal digit? -/
def isDigit (c : Nat) : Bool := decide (48 ≤ c) && decide (c ≤ 57)

/-- The digit loop of `parse_int`: accumulate decimal digits into `n`
(wrapping at 64 bits), stopping at, and not consuming, the first
non-digit byte. -/
def parseDigits : List Nat → Word → (Word × List Nat)
  | [], n => (n, [])
  | c :: cs, n =>
    if isDigit c then parseDigits cs ((n * 10 + (c - 48)) % W) else (n, c :: cs)

/-- `parse_int`: an optional leading minus sign (byte 45, which is consumed),
then a possibly empty digit sequence.  Always succeeds; an empty digit
sequence yields 0.  Negation is two's-complement. -/
def parseInt (l : List Nat) : Word × List Nat :=
  match l with
  | 45 :: cs => let p := parseDigits cs 0; ((W - p.1) % W, p.2)
  | _ => parseDigits l 0

/-- The scanning loop of `parse`, with fuel equal to the number of remaining
loop iterations (each iteration consumes at least one byte, so the initial
fuel `l.length` is never exhausted).  Byte 43 is the plus sign, byte 96 the
grave accent, byte 45 the minus sign. -/
def parseGo : Nat → List Nat → List Op
  | 0, _ => []
  | _ + 1, [] => []
  | fuel + 1, b :: rest =>
    if b = 43 then
      let p1 := parseInt rest
      match p1.2 with
      | 96 :: r2 =>
        match r2 with
        | 43 :: r3 =>
          let p2 := parseInt r3
          Op.JmpV p1.1 p2.1 :: parseGo fuel p2.2
        | other =>
          let p2 := parseInt other
          Op.JmpA p1.1 p2.1 :: parseGo fuel p2.2
      | other => parseGo fuel other.tail
    else if b = 45 ∨ isDigit b then
      let p1 := parseInt (b :: rest)
      match p1.2 with
      | 96 :: r2 =>
        match r2 with
        | 43 :: r3 =>
          let p2 := parseInt r3
          Op.SetV p1.1 p2.1 :: parseGo fuel p2.2
        | other =>
          let p2 := parseInt other
          Op.SetA p1.1 p2.1 :: parseGo fuel p2.2
      | other => parseGo fuel other.tail
    else parseGo fuel rest

/-- `parse`: turn a byte buffer into the instruction sequence. -/
def parse (l : List Nat) : List Op := parseGo l.length l

/-- Number of tape cells (`[0; 0x10000]`). -/
def tapeLen : Nat := 65536

/-- Pointwise update of a tape. -/
def upd (T : Word → Word) (a x : Word) : Word → Word :=
  fun b => if b = a then x else T b

/-- The all-zero initial tape. -/
def zeroTape : Word → Word := fun _ => 0

/-- Interpreter state of `run`: instruction pointer `i` (a `usize`), the
tape, the last-value register `v`, and the list of values passed to the
output sink `print` so far. -/
structure ISt where
  ip : Word
  tape : Word → Word
  v : Word
  out : List Word

/-- Result of one iteration of the interpreter loop. -/
inductive StepRes where
  | next (s : ISt)
  | halt (out : List Word)
  | ub (addr : Word) (out : List Word)

/-- One iteration of the `while let Some(op) = ops.get(i)` loop of `run`.
The pointer is incremented before decoding; a taken branch then adds
`b as usize - 1` with wrapping `usize` arithmetic.  A write to cell 0 calls
`print` with the freshly stored value.  `get_unchecked` outside the tape is
the `ub` outcome. -/
def istep (p : List Op) (s : ISt) : StepRes :=
  match p[s.ip]? with
  | none => .halt s.out
  | some op =>
    let i1 := (s.ip + 1) % W
    match op with
    | .SetV a b =>
      if a < tapeLen then
        let nv := wadd (s.tape a) b
        .next ⟨i1, upd s.tape a nv, nv, if a = 0 then s.out ++ [nv] else s.out⟩
      else .ub a s.out
    | .SetA a b =>
      if b < tapeLen then
        if a < tapeLen then
          let nv := wadd (s.tape a) (s.tape b)
          .next ⟨i1, upd s.tape a nv, nv, if a = 0 then s.out ++ [nv] else s.out⟩
        else .ub a s.out
      else .ub b s.out
    | .JmpV c d =>
      if c ≠ s.v then
        .next ⟨(i1 + (d + (W - 1)) % W) % W, s.tape, s.v, s.out⟩
      else .next ⟨i1, s.tape, s.v, s.out⟩
    | .JmpA c d =>
      if c ≠ s.v then
        if d < tapeLen then
          .next ⟨(i1 + (s.tape d + (W - 1)) % W) % W, s.tape, s.v, s.out⟩
        else .ub d s.out
      else .next ⟨i1, s.tape, s.v, s.out⟩

/-- Compile-time failures of the two code generators, each matching one Rust
panic site: `todo!()` on `BranchOnIndirect` (`unsupported`) and on an
immediate not fitting `i32` (`immOverflow`); out-of-bounds indexing of the
label array (`labelOOB`); a failing `try_into().unwrap()` on a byte offset
(`offsetOverflow`); `last_reg.unwrap()` on `None` (`noLastReg`); and the
unreachable `pop_front().unwrap()` / `remove(..).unwrap()` in `load_tape`
(`emptyQueue`, `inconsistent`). -/
inductive CErr where
  | unsupported
  | labelOOB
  | offsetOverflow
  | immOverflow
  | noLastReg
  | emptyQueue
  | inconsistent
deriving DecidableEq

/-- Result of executing one engine with bounded fuel. -/
inductive Outcome where
  | halted (out : List Word)
  | ubAccess (addr : Word) (out : List Word)
  | rangeError (addr : Word) (out : List Word)
  | undef (out : List Word)
  | compileFail (e : CErr)
  | outOfFuel
deriving DecidableEq

/-- Run the interpreter loop with the given fuel. -/
def irun (p : List Op) : Nat → ISt → Outcome
  | 0, _ => .outOfFuel
  | n + 1, s =>
    match istep p s with
    | .next s' => irun p n s'
    | .halt o => .halted o
    | .ub a o => .ubAccess a o

/-- The interpreter engine (`run`): fresh zero tape, `i = 0`, `v = 0`. -/
def interpRun (p : List Op) (n : Nat) : Outcome :=
  irun p n ⟨0, zeroTape, 0, []⟩

/-- One basic block of the code emitted by the baseline compiler `jit`,
with the branch target already resolved to a block index (labels are
declared up front and back-patched by the assembler at finalize time, so
the resolved-target view is exact). -/
inductive JBlock where
  | bSetV (a b : Word)
  | bSetA (a b : Word)
  | bJmp (c : Word) (target : Nat)
deriving DecidableEq

/-- Compilation of one instruction by `jit`.  `i` is the instruction index,
`len` the program length.  Offsets `addr * 8` go through
`try_into::<i32>().unwrap()`; the branch target is
`labels[i - b as usize - 2]`, computed with wrapping `usize` arithmetic and
panicking when outside the label array; `JmpA` is `todo!()`. -/
def jitCompileOp (len i : Nat) : Op → Except CErr JBlock
  | .SetV a b =>
    if fitsI32 (wrap (a * 8)) then .ok (.bSetV a b) else .error .offsetOverflow
  | .SetA a b =>
    if fitsI32 (wrap (b * 8)) then
      if fitsI32 (wrap (a * 8)) then .ok (.bSetA a b) else .error .offsetOverflow
    else .error .offsetOverflow
  | .JmpV c d =>
    if fitsI32 (wrap (c * 8)) then
      let t := (i + 2 * W - (d + 2)) % W
      if t < len then .ok (.bJmp c t) else .error .labelOOB
    else .error .offsetOverflow
  | .JmpA _ _ => .error .unsupported

/-- Compile a suffix of the program starting at instruction index `i`,
stopping at the first panic. -/
def jitCompileAux (len : Nat) : Nat → List Op → Except CErr (List JBlock)
  | _, [] => .ok []
  | i, op :: rest =>
    match jitCompileOp len i op with
    | .error e => .error e
    | .ok b =>
      match jitCompileAux len (i + 1) rest with
      | .error e => .error e
      | .ok bs => .ok (b :: bs)

/-- The baseline compiler `jit`: one block per instruction. -/
def jitCompile (p : List Op) : Except CErr (List JBlock) :=
  jitCompileAux p.length 0 p

/-- Runtime state of the code emitted by `jit`: block counter, the tape
behind `rbx`, the `rdi` register (which carries the last computed value;
`none` when its content is unspecified, e.g. clobbered by the call to
`print` or not yet written), and the output so far. -/
structure JSt where
  pc : Nat
  tape : Word → Word
  rdi : Option Word
  out : List Word

/-- Result of executing one emitted block. -/
inductive JRes where
  | next (s : JSt)
  | halt (out : List Word)
  | ub (addr : Word) (out : List Word)
  | undef (out : List Word)

/-- Execute one block of `jit` output.  A `Set` block loads the addend into
`rdi`, adds the target cell, stores back, and calls `print` when the target
is cell 0 (the call clobbers `rdi`).  A branch block compares `rdi` against
the comparison cell loaded into `rax` and jumps on not-equal.  Accesses
outside the tape are undefined behaviour; falling past the last block runs
the epilogue and returns. -/
def jstep (bs : List JBlock) (s : JSt) : JRes :=
  match bs[s.pc]? with
  | none => .halt s.out
  | some b =>
    match b with
    | .bSetV a b =>
      if a < tapeLen then
        let nv := wadd b (s.tape a)
        .next ⟨s.pc + 1, upd s.tape a nv,
               if a = 0 then none else some nv,
               if a = 0 then s.out ++ [nv] else s.out⟩
      else .ub a s.out
    | .bSetA a b =>
      if b < tapeLen then
        if a < tapeLen then
          let nv := wadd (s.tape b) (s.tape a)
          .next ⟨s.pc + 1, upd s.tape a nv,
                 if a = 0 then none else some nv,
                 if a = 0 then s.out ++ [nv] else s.out⟩
        else .ub a s.out
      else .ub b s.out
    | .bJmp c t =>
      if c < tapeLen then
        match s.rdi with
        | none => .undef s.out
        | some dv =>
          if dv ≠ s.tape c then .next ⟨t, s.tape, s.rdi, s.out⟩
          else .next ⟨s.pc + 1, s.tape, s.rdi, s.out⟩
      else .ub c s.out

/-- Run `jit`-emitted code with the given fuel. -/
def jrun (bs : List JBlock) : Nat → JSt → Outcome
  | 0, _ => .outOfFuel
  | n + 1, s =>
    match jstep bs s with
    | .next s' => jrun bs n s'
    | .halt o => .halted o
    | .ub a o => .ubAccess a o
    | .undef o => .undef o

/-- The baseline-compiler engine: compile, then run the emitted code on a
fresh zero tape.  At entry `rdi` holds the tape base pointer, so its value
as machine integer is unspecified. -/
def jitRunE (p : List Op) (n : Nat) : Outcome :=
  match jitCompile p with
  | .error e => .compileFail e
  | .ok bs => jrun bs n ⟨0, zeroTape, none, []⟩

/-- The five callee-saved registers of the `jit2` cache pool. -/
inductive Reg where
  | r12
  | r13
  | r14
  | r15
  | rbp
deriving DecidableEq

/-- Machine instructions emitted by `jit2`, other than the compare-and-jump
pair that ends a branch block: spill (`mov [rbx + addr*8], r`), load
(`mov r, [rbx + addr*8]`), add-immediate, add-from-memory, and the call to
`print` with register `r` as argument (the cache registers are callee-saved,
so the call preserves them). -/
inductive MOp where
  | mStore (addr : Word) (r : Reg)
  | mLoad (r : Reg) (addr : Word)
  | mAddImm (r : Reg) (b : Word)
  | mAddMem (r : Reg) (addr : Word)
  | mPrint (r : Reg)
deriving DecidableEq

/-- Compile-time register-allocation state of `jit2`: the `tape2reg` and
`reg2tape` hash maps, the FIFO `regqueue`, and `last_reg`. -/
structure CSt where
  t2r : Word → Option Reg
  r2t : Reg → Option Word
  queue : List Reg
  lastReg : Option Reg

/-- Update the cell-to-register table at one cell. -/
def updT (f : Word → Option Reg) (a : Word) (v : Option Reg) : Word → Option Reg :=
  fun b => if b = a then v else f b

/-- Update a register-indexed map at one register. -/
def updR {α : Type} (f : Reg → Option α) (r : Reg) (v : Option α) : Reg → Option α :=
  fun q => if q = r then v else f q

/-- The initial allocation state: empty tables,
`regqueue = [R12, R13, R14, R15, RBP]`, no last register. -/
def cs0 : CSt := ⟨fun _ => none, fun _ => none, [.r12, .r13, .r14, .r15, .rbp], none⟩

/-- `load_tape` of `jit2`: a compile-time operation.  A cached cell returns
its register with no emitted code and no state change.  Otherwise the next
register is rotated off the FIFO; if it currently holds another cell that
cell is spilled back to its tape slot, then the requested cell is loaded,
and both tables are updated. -/
def loadTape (t : Word) (s : CSt) : Except CErr (Reg × List MOp × CSt) :=
  match s.t2r t with
  | some r => .ok (r, [], s)
  | none =>
    match s.queue with
    | [] => .error .emptyQueue
    | r :: q =>
      let queue' := q ++ [r]
      match s.r2t r with
      | some i =>
        match s.t2r i with
        | some _ =>
          if fitsI32 (wrap (i * 8)) then
            if fitsI32 (wrap (t * 8)) then
              .ok (r, [.mStore i r, .mLoad r t],
                   ⟨updT (updT s.t2r i none) t (some r), updR s.r2t r (some t),
                    queue', s.lastReg⟩)
            else .error .offsetOverflow
          else .error .offsetOverflow
        | none => .error .inconsistent
      | none =>
        if fitsI32 (wrap (t * 8)) then
          .ok (r, [.mLoad r t],
               ⟨updT s.t2r t (some r), updR s.r2t r (some t), queue', s.lastReg⟩)
        else .error .offsetOverflow

/-- One emitted block of `jit2`.  For a branch instruction the `load_tape`
code is emitted before the block label is bound, so it runs only when the
block is entered by fall-through (`pre`); a jump to the block lands directly
on the compare (`br`).  For set instructions the label comes first, so all
code is in `body`. -/
structure B2 where
  pre : List MOp
  body : List MOp
  br : Option (Reg × Reg × Nat)
deriving DecidableEq

/-- Compilation of one instruction by `jit2`. -/
def j2CompOp (len i : Nat) (op : Op) (cs : CSt) : Except CErr (B2 × CSt) :=
  match op with
  | .SetV a b =>
    match loadTape a cs with
    | .error e => .error e
    | .ok (r, lm, cs1) =>
      if fitsI8 b || fitsI32 b then
        if fitsI32 (wrap (a * 8)) then
          .ok (⟨[], lm ++ [.mAddImm r b, .mStore a r] ++
                    (if a = 0 then [.mPrint r] else []), none⟩,
               ⟨cs1.t2r, cs1.r2t, cs1.queue, some r⟩)
        else .error .offsetOverflow
      else .error .immOverflow
  | .SetA a b =>
    match loadTape a cs with
    | .error e => .error e
    | .ok (r, lm, cs1) =>
      if fitsI32 (wrap (b * 8)) then
        if fitsI32 (wrap (a * 8)) then
          .ok (⟨[], lm ++ [.mAddMem r b, .mStore a r] ++
                    (if a = 0 then [.mPrint r] else []), none⟩,
               ⟨cs1.t2r, cs1.r2t, cs1.queue, some r⟩)
        else .error .offsetOverflow
      else .error .offsetOverflow
  | .JmpV c d =>
    match loadTape c cs with
    | .error e => .error e
    | .ok (r, lm, cs1) =>
      match cs1.lastReg with
      | none => .error .noLastReg
      | some lr =>
        let t := (i + 2 * W - (d + 2)) % W
        if t < len then .ok (⟨lm, [], some (r, lr, t)⟩, cs1)
        else .error .labelOOB
  | .JmpA _ _ => .error .unsupported

/-- Compile a suffix of the program with `jit2`, threading the allocation
state, stopping at the first panic. -/
def j2CompAux (len : Nat) : Nat → List Op → CSt → Except CErr (List B2 × CSt)
  | _, [], cs => .ok ([], cs)
  | i, op :: rest, cs =>
    match j2CompOp len i op cs with
    | .error e => .error e
    | .ok (b, cs') =>
      match j2CompAux len (i + 1) rest cs' with
      | .error e => .error e
      | .ok (bs, cs'') => .ok (b :: bs, cs'')

/-- The caching compiler `jit2`. -/
def j2Compile (p : List Op) : Except CErr (List B2 × CSt) :=
  j2CompAux p.length 0 p cs0

/-- Runtime state of `jit2`-emitted code: block counter, whether the block
was entered by a taken jump (skipping its `pre` code), the tape, the five
cache registers (`none` = never written, value unspecified), and the output
so far. -/
structure J2St where
  pc : Nat
  jumped : Bool
  tape : Word → Word
  regs : Reg → Option Word
  out : List Word

/-- Result of running a straight-line sequence of emitted instructions. -/
inductive ERes where
  | ok (T : Word → Word) (rg : Reg → Option Word) (o : List Word)
  | ub (addr : Word) (o : List Word)
  | undef (o : List Word)

/-- Execute a list of emitted instructions. -/
def execMops : List MOp → (Word → Word) → (Reg → Option Word) → List Word → ERes
  | [], T, rg, o => .ok T rg o
  | m :: ms, T, rg, o =>
    match m with
    | .mStore a r =>
      if a < tapeLen then
        match rg r with
        | some x => execMops ms (upd T a x) rg o
        | none => .undef o
      else .ub a o
    | .mLoad r a =>
      if a < tapeLen then execMops ms T (updR rg r (some (T a))) o else .ub a o
    | .mAddImm r b =>
      match rg r with
      | some x => execMops ms T (updR rg r (some (wadd x b))) o
      | none => .undef o
    | .mAddMem r a =>
      if a < tapeLen then
        match rg r with
        | some x => execMops ms T (updR rg r (some (wadd x (T a)))) o
        | none => .undef o
      else .ub a o
    | .mPrint r =>
      match rg r with
      | some x => execMops ms T rg (o ++ [x])
      | none => .undef o

/-- Result of executing one `jit2` block. -/
inductive J2Res where
  | next (s : J2St)
  | halt (out : List Word)
  | ub (addr : Word) (out : List Word)
  | undef (out : List Word)

/-- Execute one block of `jit2` output: the `pre` code only on fall-through
entry, then the body, then the optional compare-and-jump-on-not-equal. -/
def j2step (bs : List B2) (s : J2St) : J2Res :=
  match bs[s.pc]? with
  | none => .halt s.out
  | some b =>
    match execMops ((if s.jumped then [] else b.pre) ++ b.body) s.tape s.regs s.out with
    | .ub a o => .ub a o
    | .undef o => .undef o
    | .ok T rg o =>
      match b.br with
      | none => .next ⟨s.pc + 1, false, T, rg, o⟩
      | some (r1, r2, t) =>
        match rg r1, rg r2 with
        | some x, some y =>
          if x ≠ y then .next ⟨t, true, T, rg, o⟩
          else .next ⟨s.pc + 1, false, T, rg, o⟩
        | _, _ => .undef o

/-- Run `jit2`-emitted code with the given fuel. -/
def j2run (bs : List B2) : Nat → J2St → Outcome
  | 0, _ => .outOfFuel
  | n + 1, s =>
    match j2step bs s with
    | .next s' => j2run bs n s'
    | .halt o => .halted o
    | .ub a o => .ubAccess a o
    | .undef o => .undef o

/-- The caching-compiler engine: compile, then run the emitted code on a
fresh zero tape with unspecified initial register contents. -/
def jit2RunE (p : List Op) (n : Nat) : Outcome :=
  match j2Compile p with
  | .error e => .compileFail e
  | .ok (bs, _) => j2run bs n ⟨0, false, zeroTape, fun _ => none, []⟩

/-- Validity test of `char::from_u32`: below `0x110000` and not a UTF-16
surrogate. -/
def validChar (u : Nat) : Bool :=
  decide (u < 55296) || (decide (57344 ≤ u) && decide (u < 1114112))

/-- The code point written by the output sink `print` for the machine word
`v`: the argument is first truncated with `as u32`, then turned into a
`char`, with `U+FFFD` substituted when that fails. -/
def printedCp (v : Word) : Nat :=
  let u := v % 4294967296
  if validChar u then u else 65533

/-- Is the full (untruncated) machine word a valid Unicode scalar value?
This is the predicate the specification applies to the word itself. -/
def validScalarW (v : Word) : Bool :=
  decide (v < 55296) || (decide (57344 ≤ v) && decide (v < 1114112))

/-- Does the instruction sequence contain a branch-on-indirect? -/
def isJmpA : Op → Bool
  | .JmpA _ _ => true
  | _ => false

/-- No branch-on-indirect instruction occurs in the program. -/
def noJmpA (p : List Op) : Bool := p.all fun op => !isJmpA op

/-- Is the instruction a set whose addresses are inside the tape and whose
immediate fits an `i32` (so that every engine gives it well-defined,
compilable semantics)? -/
def straightOk : Op → Bool
  | .SetV a b => decide (a < tapeLen) && fitsI32 b
  | .SetA a b => decide (a < tapeLen) && decide (b < tapeLen)
  | .JmpV _ _ => false
  | .JmpA _ _ => false

/-- A straight-line program: set instructions only, with in-range addresses
and `i32` immediates. -/
def straightLineOk (p : List Op) : Bool := p.all straightOk

/-- Static successors of the instruction at index `i` under the reference
(interpreter) semantics: the fall-through index and, for a
branch-on-immediate, the taken target `i + disp` (instruction-count
displacement, wrapping at 64 bits), kept only when inside the program. -/
def succAt (len i : Nat) : Op → List Nat
  | .SetV _ _ => if i + 1 < len then [i + 1] else []
  | .SetA _ _ => if i + 1 < len then [i + 1] else []
  | .JmpV _ d =>
    (if i + 1 < len then [i + 1] else []) ++
    (let t := (i + d) % W; if t < len then [t] else [])
  | .JmpA _ _ => if i + 1 < len then [i + 1] else []

/-- Number of predecessors of instruction index `j` contributed by the
instructions from index `i` on. -/
def predCountAux (len : Nat) : List Op → Nat → Nat → Nat
  | [], _, _ => 0
  | op :: rest, i, j =>
    (if j ∈ succAt len i op then 1 else 0) + predCountAux len rest (i + 1) j

/-- Every instruction of the program is reachable from at most one
predecessor (no multi-predecessor branch targets). -/
def singlePred (p : List Op) : Bool :=
  (List.range p.length).all fun j => decide (predCountAux p.length p 0 j ≤ 1)

/-- The finite sequence of output-sink calls produced by a finished engine
run: a run that halted normally produced its `out` list; a run that
panicked during code generation produced no calls at all.  Unfinished runs
and runs that reached undefined behaviour produce no defined sequence. -/
def producedOut : Outcome → Option (List Word)
  | .halted o => some o
  | .compileFail _ => some []
  | _ => none

/-- The engine, given enough fuel, finishes with output-call sequence `o`. -/
def Produces (E : Nat → Outcome) (o : List Word) : Prop :=
  ∃ n, producedOut (E n) = some o

/-- The instruction pointer produced by a taken interpreter branch, exactly
as computed by `run`: the already-advanced pointer plus
`disp as usize - 1`, all with wrapping `usize` arithmetic. -/
def takenIp (ip d : Word) : Word := ((ip + 1) % W + (d + (W - 1)) % W) % W

/-- Reference denotation of a straight-line program: thread the tape and the
output-call list through the set instructions in order. -/
def lineRun : List Op → (Word → Word) → List Word → ((Word → Word) × List Word)
  | [], T, o => (T, o)
  | .SetV a b :: rest, T, o =>
    let nv := wadd (T a) b
    lineRun rest (upd T a nv) (if a = 0 then o ++ [nv] else o)
  | .SetA a b :: rest, T, o =>
    let nv := wadd (T a) (T b)
    lineRun rest (upd T a nv) (if a = 0 then o ++ [nv] else o)
  | _ :: rest, T, o => lineRun rest T o

/-- Well-formedness of a `jit2` allocation state: the two tables are
mutually inverse, cached cells lie inside the tape, and every register is
in the queue. -/
def WF (cs : CSt) : Prop :=
  (∀ r i, cs.r2t r = some i → cs.t2r i = some r) ∧
  (∀ c r, cs.t2r c = some r → cs.r2t r = some c) ∧
  (∀ c r, cs.t2r c = some r → c < tapeLen) ∧
  (∀ r : Reg, r ∈ cs.queue)

/-- The write-through cache invariant relating a compile-time allocation
state to a runtime tape and register file: every cached cell's register
holds that cell's current tape value. -/
def Inv (cs : CSt) (T : Word → Word) (rg : Reg → Option Word) : Prop :=
  ∀ c r, cs.t2r c = some r → rg r = some (T c)

/-- Claim C1 as stated: on every program with no branch-on-indirect and no
multi-predecessor branch target, the three engines produce the identical
sequence of output-sink calls. -/
def C1Prop : Prop :=
  ∀ p : List Op, noJmpA p = true → singlePred p = true →
    ∀ o1 o2 o3, Produces (interpRun p) o1 → Produces (jitRunE p) o2 →
      Produces (jit2RunE p) o3 → o1 = o2 ∧ o1 = o3

/-- Claim C2 as stated: in both cited engines (the interpreter and the
baseline compiler) a branch is taken exactly when the comparison operand
`cmp` itself differs from the current last value, and falls through when
they are equal. -/
def C2Prop : Prop :=
  (∀ (p : List Op) (s : ISt) (c d : Word), p[s.ip]? = some (.JmpV c d) →
    c ≠ s.v → istep p s = .next ⟨takenIp s.ip d, s.tape, s.v, s.out⟩) ∧
  (∀ (p : List Op) (s : ISt) (c d : Word), p[s.ip]? = some (.JmpV c d) →
    c = s.v → istep p s = .next ⟨(s.ip + 1) % W, s.tape, s.v, s.out⟩) ∧
  (∀ (bs : List JBlock) (s : JSt) (c : Word) (t : Nat) (dv : Word),
    bs[s.pc]? = some (.bJmp c t) → c < tapeLen → s.rdi = some dv →
    c ≠ dv → jstep bs s = .next ⟨t, s.tape, s.rdi, s.out⟩) ∧
  (∀ (bs : List JBlock) (s : JSt) (c : Word) (t : Nat) (dv : Word),
    bs[s.pc]? = some (.bJmp c t) → c < tapeLen → s.rdi = some dv →
    c = dv → jstep bs s = .next ⟨s.pc + 1, s.tape, s.rdi, s.out⟩)

/-- The one-instruction program referencing tape address 70000. -/
def p70000 : List Op := [.SetV 70000 1]

/-- Claim C5 as stated: every engine, run on the program referencing
address 70000, raises a distinct address-out-of-range error. -/
def C5Prop : Prop :=
  (∃ n o, interpRun p70000 n = .rangeError 70000 o) ∧
  (∃ n o, jitRunE p70000 n = .rangeError 70000 o) ∧
  (∃ n o, jit2RunE p70000 n = .rangeError 70000 o)

/-- Claim C6 as stated: the code point written for `v` is `v` itself when
`v` is a valid Unicode scalar value and `U+FFFD` exactly when the machine
word `v` is not one (including words outside 32-bit range). -/
def C6Prop : Prop :=
  ∀ v : Word, v < W →
    printedCp v = if validScalarW v then v else 65533

/-- Claim C9 as stated: on every program containing a branch-on-indirect,
both compilers fail with the unsupported-instruction error. -/
def C9Prop : Prop :=
  ∀ p : List Op, (∃ a b, Op.JmpA a b ∈ p) →
    jitCompile p = .error .unsupported ∧
    (∀ r, j2Compile p ≠ .ok r) ∧ j2Compile p = .error .unsupported

/-- The byte string of the termination test program, the text of
the fragments A = 5, imm 3 and branch cmp 5, disp -1. -/
def bytes8 : List Nat := [53, 96, 43, 51, 43, 53, 96, 43, 45, 49]

/-- The two-instruction loop of claim C8. -/
def p8 : List Op := [.SetV 5 3, .JmpV 5 (W - 1)]

/-- The number of loop iterations after which cell 5 of the C8 program has
wrapped around to hold exactly 5: the unique `k < 2 ^ 64` with
`3 * k = 5 + 2 ^ 64`. -/
def k0 : Nat := 6148914691236517207

/-- The interpreter state of the C8 program at the top of its loop after
`k` completed iterations. -/
def loopSt (k : Nat) : ISt :=
  ⟨0, upd zeroTape 5 ((3 * k) % W), (3 * k) % W, []⟩

/-- Tape after one set instruction (reference denotation). -/
def setTape (T : Word → Word) : Op → (Word → Word)
  | .SetV a b => upd T a (wadd (T a) b)
  | .SetA a b => upd T a (wadd (T a) (T b))
  | _ => T

/-- Output-call list after one set instruction (reference denotation). -/
def setOut (T : Word → Word) (o : List Word) : Op → List Word
  | .SetV a b => if a = 0 then o ++ [wadd (T a) b] else o
  | .SetA a b => if a = 0 then o ++ [wadd (T a) (T b)] else o
  | _ => o

/-- The block the baseline compiler emits for a set instruction (branches
never occur in the straight-line programs this is used for). -/
def jBlockOf : Op → JBlock
  | .SetV a b => .bSetV a b
  | .SetA a b => .bSetA a b
  | .JmpV c _ => .bJmp c 0
  | .JmpA _ _ => .bSetV 0 0

/-- Is the emitted instruction anything but a call to the output sink? -/
def noPrint : MOp → Bool
  | .mPrint _ => false
  | _ => true

/-- Did an `Except` computation succeed? -/
def isOkE {ε α : Type} : Except ε α → Bool
  | .ok _ => true
  | .error _ => false

/-- The allocation state after `load_tape` has assigned register `r` to
cell `t` and left the rotated queue `q'`. -/
def csA (cs : CSt) (t : Word) (r : Reg) (q' : List Reg) : CSt :=
  ⟨updT cs.t2r t (some r), updR cs.r2t r (some t), q', cs.lastReg⟩

/-- The allocation state after `load_tape` has evicted cell `i` from
register `r` and reassigned `r` to cell `t`. -/
def csB (cs : CSt) (t : Word) (r : Reg) (i : Word) (q' : List Reg) : CSt :=
  ⟨updT (updT cs.t2r i none) t (some r), updR cs.r2t r (some t), q', cs.lastReg⟩

theorem W_pos : 0 < W := by decide

theorem takenIp_eq (x y : Nat) : takenIp x y = (x + y) % W := by
  unfold takenIp
  rw [← Nat.add_mod]
  have h1 : x + 1 + (y + (W - 1)) = x + y + W := by
    have := W_pos
    omega
  rw [h1, Nat.add_mod_right]

theorem upd_at (T : Word → Word) (a x : Word) : upd T a x a = x := by
  simp [upd]

theorem upd_ne (T : Word → Word) (a x b : Word) (h : b ≠ a) : upd T a x b = T b := by
  simp [upd, h]

theorem upd_upd (T : Word → Word) (a x y : Word) :
    upd (upd T a x) a y = upd T a y := by
  funext b
  by_cases h : b = a <;> simp [upd, h]

theorem upd_id (T : Word → Word) (a : Word) : upd T a (T a) = T := by
  funext b
  by_cases h : b = a <;> simp [upd, h]

theorem updR_at {α : Type} (f : Reg → Option α) (r : Reg) (v : Option α) :
    updR f r v r = v := by
  simp [updR]

theorem updR_ne {α : Type} (f : Reg → Option α) (r : Reg) (v : Option α)
    (q : Reg) (h : q ≠ r) : updR f r v q = f q := by
  simp [updR, h]

theorem updR_updR {α : Type} (f : Reg → Option α) (r : Reg) (v w : Option α) :
    updR (updR f r v) r w = updR f r w := by
  funext q
  by_cases h : q = r <;> simp [updR, h]

theorem updR_id {α : Type} (f : Reg → Option α) (r : Reg) :
    updR f r (f r) = f := by
  funext q
  by_cases h : q = r <;> simp [updR, h]

theorem updT_at (f : Word → Option Reg) (a : Word) (v : Option Reg) :
    updT f a v a = v := by
  simp [updT]

theorem updT_ne (f : Word → Option Reg) (a : Word) (v : Option Reg)
    (b : Word) (h : b ≠ a) : updT f a v b = f b := by
  simp [updT, h]

theorem addr_fits (a : Nat) (h : a < tapeLen) : fitsI32 (wrap (a * 8)) = true := by
  have h' : a < 65536 := h
  have h2 : a * 8 < 2147483648 := by omega
  have h3 : (a * 8) % W = a * 8 := Nat.mod_eq_of_lt (by unfold W; omega)
  unfold fitsI32 wrap
  rw [h3]
  simp only [Bool.or_eq_true, decide_eq_true_eq]
  left
  exact h2

theorem irun_next {p : List Op} {s s' : ISt} (h : istep p s = .next s') (n : Nat) :
    irun p (n + 1) s = irun p n s' := by
  simp [irun, h]

theorem jrun_next {bs : List JBlock} {s s' : JSt} (h : jstep bs s = .next s') (n : Nat) :
    jrun bs (n + 1) s = jrun bs n s' := by
  simp [jrun, h]

theorem j2run_next {bs : List B2} {s s' : J2St} (h : j2step bs s = .next s') (n : Nat) :
    j2run bs (n + 1) s = j2run bs n s' := by
  simp [j2run, h]

theorem dropHead {α : Type} :
    ∀ (l : List α) (k : Nat) (a : α) (r : List α), l.drop k = a :: r → l[k]? = some a := by
  intro l
  induction l with
  | nil => intro k a r h; simp at h
  | cons x xs ih =>
    intro k a r h
    cases k with
    | zero =>
      simp only [List.drop_zero] at h
      cases h
      simp
    | succ m =>
      simp only [List.drop_succ_cons] at h
      simpa using ih m a r h

theorem dropTail {α : Type} :
    ∀ (l : List α) (k : Nat) (a : α) (r : List α), l.drop k = a :: r → l.drop (k + 1) = r := by
  intro l
  induction l with
  | nil => intro k a r h; simp at h
  | cons x xs ih =>
    intro k a r h
    cases k with
    | zero =>
      simp only [List.drop_zero] at h
      cases h
      simp
    | succ m =>
      simp only [List.drop_succ_cons] at h ⊢
      exact ih m a r h

theorem dropNone {α : Type} :
    ∀ (l : List α) (k : Nat), l.drop k = [] → l[k]? = none := by
  intro l
  induction l with
  | nil => intro k _; simp
  | cons x xs ih =>
    intro k h
    cases k with
    | zero => simp at h
    | succ m =>
      simp only [List.drop_succ_cons] at h
      simpa using ih m h

theorem fetchLt {α : Type} {l : List α} {k : Nat} {a : α} (h : l[k]? = some a) :
    k < l.length := by
  by_contra h2
  rw [List.getElem?_eq_none (by omega)] at h
  exact Option.noConfusion h

/-- C6 counterexample: the word `2 ^ 32 + 65` is not a valid Unicode scalar
value, yet the output sink writes code point 65 for it (the argument is
truncated with `as u32` before validity is checked), not `U+FFFD`. -/
theorem C6_counterexample : ¬ C6Prop := by
  intro h
  have h1 := h 4294967361 (by decide)
  have h2 : ¬(printedCp 4294967361 =
      if validScalarW 4294967361 then 4294967361 else 65533) := by decide
  exact h2 h1

/-- C6 (amended): the code point written for the machine word `v` is the
truncation `v mod 2 ^ 32` whenever that truncation is a valid Unicode scalar
value, and `U+FFFD` whenever the truncation is not. -/
theorem C6_theorem (v : Word) :
    (validScalarW (v % 4294967296) = true → printedCp v = v % 4294967296) ∧
    (validScalarW (v % 4294967296) = false → printedCp v = 65533) := by
  have he : validChar (v % 4294967296) = validScalarW (v % 4294967296) := rfl
  constructor <;> intro h <;> simp only [printedCp, he, h] <;> simp

/-- Witness for C6: code point 65 for input 65; the surrogate 55296 maps to
the replacement code point. -/
theorem C6_witness :
    printedCp 65 = 65 % 4294967296 ∧ printedCp 55296 = 65533 :=
  ⟨(C6_theorem 65).1 (by decide), (C6_theorem 55296).2 (by decide)⟩

/-- C10: the integer parser is total and an empty digit sequence yields 0
without consuming the byte that follows (an optional leading minus sign is
consumed); consequently the bytes of the fragment with target 7, separator,
and a non-operand byte parse to the indirect set with source address 0. -/
theorem C10_theorem :
    (∀ (c : Nat) (l : List Nat), c ≠ 45 → isDigit c = false →
      parseInt (c :: l) = (0, c :: l)) ∧
    (∀ (c : Nat) (l : List Nat), isDigit c = false →
      parseInt (45 :: c :: l) = (0, c :: l)) ∧
    parse [55, 96, 120] = [Op.SetA 7 0] := by
  refine ⟨?_, ?_, by decide⟩
  · intro c l h1 h2
    unfold parseInt
    split
    · rename_i cs heq
      injection heq with hc _
      exact absurd hc h1
    · unfold parseDigits
      simp [h2]
  · intro c l h2
    show (let p := parseDigits (c :: l) 0; ((W - p.1) % W, p.2)) = (0, c :: l)
    unfold parseDigits
    simp [h2]

/-- Witness for C10: concrete instances of both parser facts. -/
theorem C10_witness :
    parseInt [120] = (0, [120]) ∧ parseInt [45, 120] = (0, [120]) :=
  ⟨C10_theorem.1 120 [] (by decide) (by decide), C10_theorem.2.1 120 [] (by decide)⟩

theorem takenIp_expand (x y : Nat) :
    ((x + 1) % W + (y + (W - 1)) % W) % W = (x + y) % W :=
  takenIp_eq x y

/-- C3: in the interpreter a taken branch-on-immediate at position `P` with
displacement `disp` sets the pointer to `P + disp` modulo the word size
(that is, the advanced pointer plus `disp - 1`), for every 64-bit pattern
`disp` including negative ones; a non-taken branch advances the pointer by
exactly one. -/
theorem C3_theorem (p : List Op) (s : ISt) (c d : Word)
    (hf : p[s.ip]? = some (.JmpV c d)) :
    (c ≠ s.v → istep p s = .next ⟨(s.ip + d) % W, s.tape, s.v, s.out⟩) ∧
    (c = s.v → istep p s = .next ⟨(s.ip + 1) % W, s.tape, s.v, s.out⟩) := by
  constructor
  · intro h
    simp only [istep, hf, h, ne_eq, not_false_eq_true, if_true, if_pos]
    rw [takenIp_expand]
  · intro h
    simp [istep, hf, h]

/-- Witness for C3: a taken branch with displacement 2 from position 0. -/
theorem C3_witness :
    istep [Op.JmpV 3 2] ⟨0, zeroTape, 0, []⟩ = .next ⟨(0 + 2) % W, zeroTape, 0, []⟩ :=
  (C3_theorem [Op.JmpV 3 2] ⟨0, zeroTape, 0, []⟩ 3 2 (by decide)).1 (by decide)

/-- C2 counterexample: in the baseline compiler's code the comparison
operand equals the last value (both are 5), yet the branch is taken,
because the emitted code compares the cell at the operand address (holding
0) rather than the operand itself. -/
theorem C2_counterexample : ¬ C2Prop := by
  intro h
  have hstep := h.2.2.2 [JBlock.bSetV 1 5, JBlock.bJmp 5 0]
    ⟨1, upd zeroTape 1 5, some 5, []⟩ 5 0 5 (by decide) (by decide) rfl rfl
  have h2 : jstep [JBlock.bSetV 1 5, JBlock.bJmp 5 0] ⟨1, upd zeroTape 1 5, some 5, []⟩
      = .next ⟨0, upd zeroTape 1 5, some 5, []⟩ := rfl
  rw [h2] at hstep
  simp at hstep

/-- C2 (amended): every engine branches on not-equal and falls through on
equal, but the compared quantities differ: the interpreter compares the
operand `cmp` itself against `V`, while the baseline compiler's code
compares the tape cell at address `cmp` against the register holding the
last value. -/
theorem C2_theorem :
    (∀ (p : List Op) (s : ISt) (c d : Word), p[s.ip]? = some (.JmpV c d) →
      c ≠ s.v → istep p s = .next ⟨takenIp s.ip d, s.tape, s.v, s.out⟩) ∧
    (∀ (p : List Op) (s : ISt) (c d : Word), p[s.ip]? = some (.JmpV c d) →
      c = s.v → istep p s = .next ⟨(s.ip + 1) % W, s.tape, s.v, s.out⟩) ∧
    (∀ (bs : List JBlock) (s : JSt) (c : Word) (t : Nat) (dv : Word),
      bs[s.pc]? = some (.bJmp c t) → c < tapeLen → s.rdi = some dv →
      dv ≠ s.tape c → jstep bs s = .next ⟨t, s.tape, s.rdi, s.out⟩) ∧
    (∀ (bs : List JBlock) (s : JSt) (c : Word) (t : Nat) (dv : Word),
      bs[s.pc]? = some (.bJmp c t) → c < tapeLen → s.rdi = some dv →
      dv = s.tape c → jstep bs s = .next ⟨s.pc + 1, s.tape, s.rdi, s.out⟩) := by
  refine ⟨?_, ?_, ?_, ?_⟩
  · intro p s c d hf h
    simp [istep, hf, h, takenIp]
  · intro p s c d hf h
    simp [istep, hf, h]
  · intro bs s c t dv hf hc hr h
    simp [jstep, hf, hc, hr, h]
  · intro bs s c t dv hf hc hr h
    simp [jstep, hf, hc, hr, h]

/-- Witness for C2: a taken interpreter branch and a taken compiled branch
at concrete states. -/
theorem C2_witness :
    istep [Op.JmpV 9 4] ⟨0, zeroTape, 0, []⟩ = .next ⟨takenIp 0 4, zeroTape, 0, []⟩ ∧
    jstep [JBlock.bJmp 7 0] ⟨0, zeroTape, some 1, []⟩ = .next ⟨0, zeroTape, some 1, []⟩ :=
  ⟨C2_theorem.1 [Op.JmpV 9 4] ⟨0, zeroTape, 0, []⟩ 9 4 (by decide) (by decide),
   C2_theorem.2.2.1 [JBlock.bJmp 7 0] ⟨0, zeroTape, some 1, []⟩ 7 0 1
     (by decide) (by decide) rfl (by decide)⟩

/-- C5 counterexample: no engine raises an address-out-of-range error on
the program referencing address 70000; the interpreter performs an
unchecked out-of-bounds access instead. -/
theorem C5_counterexample : ¬ C5Prop := by
  rintro ⟨⟨n, o, h⟩, -, -⟩
  cases n with
  | zero =>
    rw [show interpRun p70000 0 = .outOfFuel from rfl] at h
    exact Outcome.noConfusion h
  | succ m =>
    rw [show interpRun p70000 (m + 1) = .ubAccess 70000 [] from rfl] at h
    exact Outcome.noConfusion h

/-- C5 (amended): every engine performs the access to address 70000
unchecked: each run ends in the undefined-behaviour outcome at address
70000, and no run of any engine ever produces an address-range error. -/
theorem C5_theorem :
    interpRun p70000 1 = .ubAccess 70000 [] ∧
    jitRunE p70000 1 = .ubAccess 70000 [] ∧
    jit2RunE p70000 1 = .ubAccess 70000 [] ∧
    (∀ n, interpRun p70000 n ≠ .rangeError 70000 []) ∧
    (∀ n, jitRunE p70000 n ≠ .rangeError 70000 []) ∧
    (∀ n, jit2RunE p70000 n ≠ .rangeError 70000 []) := by
  refine ⟨by decide, by decide, by decide, ?_, ?_, ?_⟩
  · intro n
    cases n with
    | zero => intro h; exact Outcome.noConfusion h
    | succ m =>
      rw [show interpRun p70000 (m + 1) = .ubAccess 70000 [] from rfl]
      intro h
      exact Outcome.noConfusion h
  · intro n
    cases n with
    | zero => intro h; exact Outcome.noConfusion h
    | succ m =>
      rw [show jitRunE p70000 (m + 1) = .ubAccess 70000 [] from rfl]
      intro h
      exact Outcome.noConfusion h
  · intro n
    cases n with
    | zero => intro h; exact Outcome.noConfusion h
    | succ m =>
      rw [show jit2RunE p70000 (m + 1) = .ubAccess 70000 [] from rfl]
      intro h
      exact Outcome.noConfusion h

/-- Witness for C5: the concrete undefined-behaviour outcomes of the
interpreter and the baseline compiler on the program referencing 70000. -/
theorem C5_witness :
    interpRun p70000 1 = .ubAccess 70000 [] ∧
    jitRunE p70000 1 = .ubAccess 70000 [] :=
  ⟨C5_theorem.1, C5_theorem.2.1⟩

theorem jitAux_ok_noJmpA (p : List Op) : ∀ (len i : Nat) (bs : List JBlock),
    jitCompileAux len i p = .ok bs → ∀ a b, Op.JmpA a b ∈ p → False := by
  induction p with
  | nil => intro len i bs _ a b hm; simp at hm
  | cons op rest ih =>
    intro len i bs h a b hm
    unfold jitCompileAux at h
    cases hc : jitCompileOp len i op with
    | error e => rw [hc] at h; exact Except.noConfusion h
    | ok b2 =>
      rw [hc] at h
      cases hr : jitCompileAux len (i + 1) rest with
      | error e => rw [hr] at h; exact Except.noConfusion h
      | ok bs2 =>
        rcases List.mem_cons.1 hm with heq | hm2
        · rw [← heq] at hc
          simp [jitCompileOp] at hc
        · exact ih len (i + 1) bs2 hr a b hm2

theorem j2Aux_ok_noJmpA (p : List Op) : ∀ (len i : Nat) (cs : CSt)
    (r : List B2 × CSt), j2CompAux len i p cs = .ok r →
    ∀ a b, Op.JmpA a b ∈ p → False := by
  induction p with
  | nil => intro len i cs r _ a b hm; simp at hm
  | cons op rest ih =>
    intro len i cs r h a b hm
    unfold j2CompAux at h
    split at h
    · exact Except.noConfusion h
    · rename_i b2 cs2 hc
      split at h
      · exact Except.noConfusion h
      · rename_i bs2 cs3 hr
        rcases List.mem_cons.1 hm with heq | hm2
        · rw [← heq] at hc
          simp [j2CompOp] at hc
        · exact ih len (i + 1) cs2 (bs2, cs3) hr a b hm2

/-- C9 counterexample: a program whose branch-on-indirect is preceded by a
branch with an out-of-range label makes the baseline compiler fail with the
label-indexing panic, not with the unsupported-instruction error. -/
theorem C9_counterexample : ¬ C9Prop := by
  intro h
  have h1 := (h [Op.JmpV 1 5, Op.JmpA 0 0] ⟨0, 0, by simp⟩).1
  rw [show jitCompile [Op.JmpV 1 5, Op.JmpA 0 0] = .error .labelOOB from rfl] at h1
  exact absurd h1 (by simp)

/-- C9 (amended): on every program containing a branch-on-indirect, both
compilers fail before producing runnable code (so no generated code for the
instruction can ever run, and no incorrect code is silently emitted); when
compilation reaches the branch-on-indirect itself, the failure is the
unsupported-instruction (`todo!()`) panic, but an earlier instruction can
make compilation fail with a different panic first. -/
theorem C9_theorem :
    (∀ p : List Op, (∃ a b, Op.JmpA a b ∈ p) →
      isOkE (jitCompile p) = false ∧ isOkE (j2Compile p) = false) ∧
    jitCompile [Op.JmpA 0 0] = .error .unsupported ∧
    j2Compile [Op.JmpA 0 0] = .error .unsupported := by
  refine ⟨?_, rfl, rfl⟩
  rintro p ⟨a, b, hm⟩
  constructor
  · cases hc : jitCompile p with
    | error e => rfl
    | ok bs => exact (jitAux_ok_noJmpA p p.length 0 bs hc a b hm).elim
  · cases hc : j2Compile p with
    | error e => rfl
    | ok r => exact (j2Aux_ok_noJmpA p p.length 0 cs0 r hc a b hm).elim

/-- Witness for C9: both compilers reject a concrete one-instruction
program consisting of a branch-on-indirect. -/
theorem C9_witness :
    isOkE (jitCompile [Op.JmpA 1 2]) = false ∧ isOkE (j2Compile [Op.JmpA 1 2]) = false :=
  C9_theorem.1 [Op.JmpA 1 2] ⟨1, 2, by simp⟩

theorem loadTape_miss (s : CSt) (t : Word) (r : Reg) (q : List Reg)
    (h1 : s.t2r t = none) (h2 : s.queue = r :: q) (h3 : s.r2t r = none)
    (h4 : fitsI32 (wrap (t * 8)) = true) :
    loadTape t s = .ok (r, [.mLoad r t], csA s t r (q ++ [r])) := by
  simp [loadTape, csA, h1, h2, h3, h4]

theorem loadTape_spill (s : CSt) (t : Word) (r : Reg) (q : List Reg) (i : Word)
    (h1 : s.t2r t = none) (h2 : s.queue = r :: q) (h3 : s.r2t r = some i)
    (h4 : s.t2r i = some r)
    (h5 : fitsI32 (wrap (i * 8)) = true) (h6 : fitsI32 (wrap (t * 8)) = true) :
    loadTape t s = .ok (r, [.mStore i r, .mLoad r t], csB s t r i (q ++ [r])) := by
  simp [loadTape, csB, h1, h2, h3, h4, h5, h6]

/-- C7: `load_tape` on a cached cell returns its register with no emitted
code and no state change; and loading 6 distinct in-range cells from the
empty 5-register cache emits a plain register load for each of the first
5 (rotating through R12, R13, R14, R15, RBP with no spill), while the 6th
load evicts exactly the 1st-loaded cell: it spills that cell from R12 and
reassigns R12 to the 6th cell. -/
theorem C7_theorem :
    (∀ (s : CSt) (t : Word) (r : Reg), s.t2r t = some r →
      loadTape t s = .ok (r, [], s)) ∧
    (∀ a1 a2 a3 a4 a5 a6 : Word,
      a1 < tapeLen → a2 < tapeLen → a3 < tapeLen → a4 < tapeLen →
      a5 < tapeLen → a6 < tapeLen →
      a1 ≠ a2 → a1 ≠ a3 → a1 ≠ a4 → a1 ≠ a5 → a1 ≠ a6 →
      a2 ≠ a3 → a2 ≠ a4 → a2 ≠ a5 → a2 ≠ a6 →
      a3 ≠ a4 → a3 ≠ a5 → a3 ≠ a6 →
      a4 ≠ a5 → a4 ≠ a6 →
      a5 ≠ a6 →
      ∃ s1 s2 s3 s4 s5 s6,
        loadTape a1 cs0 = .ok (.r12, [.mLoad .r12 a1], s1) ∧
        loadTape a2 s1 = .ok (.r13, [.mLoad .r13 a2], s2) ∧
        loadTape a3 s2 = .ok (.r14, [.mLoad .r14 a3], s3) ∧
        loadTape a4 s3 = .ok (.r15, [.mLoad .r15 a4], s4) ∧
        loadTape a5 s4 = .ok (.rbp, [.mLoad .rbp a5], s5) ∧
        loadTape a6 s5 = .ok (.r12, [.mStore a1 .r12, .mLoad .r12 a6], s6) ∧
        s6.t2r a1 = none ∧ s6.t2r a6 = some .r12) := by
  constructor
  · intro s t r h
    unfold loadTape
    rw [h]
  · intro a1 a2 a3 a4 a5 a6 ha1 ha2 ha3 ha4 ha5 ha6
    intro h12 h13 h14 h15 h16 h23 h24 h25 h26 h34 h35 h36 h45 h46 h56
    have e1 := loadTape_miss cs0 a1 .r12 [.r13, .r14, .r15, .rbp]
      rfl rfl rfl (addr_fits a1 ha1)
    have e2 := loadTape_miss (csA cs0 a1 .r12 ([.r13, .r14, .r15, .rbp] ++ [.r12]))
      a2 .r13 [.r14, .r15, .rbp, .r12]
      (by simp [csA, cs0, updT, Ne.symm h12]) (by simp [csA]) (by simp [csA, cs0, updR])
      (addr_fits a2 ha2)
    have e3 := loadTape_miss (csA (csA cs0 a1 .r12 ([.r13, .r14, .r15, .rbp] ++ [.r12]))
        a2 .r13 ([.r14, .r15, .rbp, .r12] ++ [.r13]))
      a3 .r14 [.r15, .rbp, .r12, .r13]
      (by simp [csA, cs0, updT, Ne.symm h13, Ne.symm h23]) (by simp [csA])
      (by simp [csA, cs0, updR]) (addr_fits a3 ha3)
    have e4 := loadTape_miss (csA (csA (csA cs0 a1 .r12 ([.r13, .r14, .r15, .rbp] ++ [.r12]))
        a2 .r13 ([.r14, .r15, .rbp, .r12] ++ [.r13]))
        a3 .r14 ([.r15, .rbp, .r12, .r13] ++ [.r14]))
      a4 .r15 [.rbp, .r12, .r13, .r14]
      (by simp [csA, cs0, updT, Ne.symm h14, Ne.symm h24, Ne.symm h34]) (by simp [csA])
      (by simp [csA, cs0, updR]) (addr_fits a4 ha4)
    have e5 := loadTape_miss (csA (csA (csA (csA cs0
        a1 .r12 ([.r13, .r14, .r15, .rbp] ++ [.r12]))
        a2 .r13 ([.r14, .r15, .rbp, .r12] ++ [.r13]))
        a3 .r14 ([.r15, .rbp, .r12, .r13] ++ [.r14]))
        a4 .r15 ([.rbp, .r12, .r13, .r14] ++ [.r15]))
      a5 .rbp [.r12, .r13, .r14, .r15]
      (by simp [csA, cs0, updT, Ne.symm h15, Ne.symm h25, Ne.symm h35, Ne.symm h45])
      (by simp [csA]) (by simp [csA, cs0, updR]) (addr_fits a5 ha5)
    have e6 := loadTape_spill (csA (csA (csA (csA (csA cs0
        a1 .r12 ([.r13, .r14, .r15, .rbp] ++ [.r12]))
        a2 .r13 ([.r14, .r15, .rbp, .r12] ++ [.r13]))
        a3 .r14 ([.r15, .rbp, .r12, .r13] ++ [.r14]))
        a4 .r15 ([.rbp, .r12, .r13, .r14] ++ [.r15]))
        a5 .rbp ([.r12, .r13, .r14, .r15] ++ [.rbp]))
      a6 .r12 [.r13, .r14, .r15, .rbp] a1
      (by simp [csA, cs0, updT, Ne.symm h16, Ne.symm h26, Ne.symm h36, Ne.symm h46,
        Ne.symm h56])
      (by simp [csA]) (by simp [csA, cs0, updR])
      (by simp [csA, cs0, updT, h12, h13, h14, h15])
      (addr_fits a1 ha1) (addr_fits a6 ha6)
    refine ⟨_, _, _, _, _, _, e1, e2, e3, e4, e5, e6, ?_, ?_⟩
    · simp [csB, csA, cs0, updT, h16]
    · simp [csB, updT]

theorem loadTape_spec (cs : CSt) (T : Word → Word) (rg : Reg → Option Word)
    (a : Word) (hw : WF cs) (hi : Inv cs T rg) (ha : a < tapeLen) :
    ∃ r lm cs1, loadTape a cs = .ok (r, lm, cs1) ∧
      (∀ ms o, execMops (lm ++ ms) T rg o = execMops ms T (updR rg r (some (T a))) o) ∧
      WF cs1 ∧ Inv cs1 T (updR rg r (some (T a))) ∧
      cs1.t2r a = some r ∧ cs1.r2t r = some a := by
  obtain ⟨wf1, wf2, wf3, wf4⟩ := hw
  cases hhit : cs.t2r a with
  | some r =>
    have hrg : updR rg r (some (T a)) = rg := by
      rw [← hi a r hhit]; exact updR_id rg r
    refine ⟨r, [], cs, ?_, ?_, ⟨wf1, wf2, wf3, wf4⟩, ?_, hhit, wf2 _ _ hhit⟩
    · unfold loadTape; rw [hhit]
    · intro ms o; rw [hrg]; rfl
    · rw [hrg]; exact hi
  | none =>
    cases hq : cs.queue with
    | nil => exact absurd (wf4 .r12) (by simp [hq])
    | cons r q =>
      have hfits := addr_fits a ha
      cases hrt : cs.r2t r with
      | none =>
        have heq := loadTape_miss cs a r q hhit hq hrt hfits
        refine ⟨r, _, _, heq, ?_, ⟨?_, ?_, ?_, ?_⟩, ?_, ?_, ?_⟩
        · intro ms o
          simp [execMops, ha]
        · -- tables stay inverse: register to cell
          intro r' j h
          by_cases hr' : r' = r
          · subst hr'
            simp only [csA] at h
            rw [updR_at] at h
            cases h
            exact updT_at ..
          · simp only [csA] at h
            rw [updR_ne _ _ _ _ hr'] at h
            have h2 := wf1 r' j h
            have hja : j ≠ a := by
              intro he; subst he; rw [hhit] at h2; exact Option.noConfusion h2
            simp only [csA]
            rw [updT_ne _ _ _ _ hja]
            exact h2
        · -- tables stay inverse: cell to register
          intro c r2 h
          by_cases hc : c = a
          · subst hc
            simp only [csA] at h
            rw [updT_at] at h
            cases h
            exact updR_at ..
          · simp only [csA] at h
            rw [updT_ne _ _ _ _ hc] at h
            have h2 := wf2 c r2 h
            have hr2 : r2 ≠ r := by
              intro he; subst he; rw [hrt] at h2; exact Option.noConfusion h2
            simp only [csA]
            rw [updR_ne _ _ _ _ hr2]
            exact h2
        · -- cached cells stay in range
          intro c r2 h
          by_cases hc : c = a
          · subst hc; exact ha
          · simp only [csA] at h
            rw [updT_ne _ _ _ _ hc] at h
            exact wf3 c r2 h
        · -- every register stays in the queue
          intro r'
          have h2 := wf4 r'
          rw [hq] at h2
          rcases List.mem_cons.1 h2 with he | hm
          · subst he; simp [csA]
          · simp [csA, hm]
        · -- the cache invariant is reestablished
          intro c r2 h
          by_cases hc : c = a
          · subst hc
            simp only [csA] at h
            rw [updT_at] at h
            cases h
            exact updR_at ..
          · simp only [csA] at h
            rw [updT_ne _ _ _ _ hc] at h
            have h2 := wf2 c r2 h
            have hr2 : r2 ≠ r := by
              intro he; subst he; rw [hrt] at h2; exact Option.noConfusion h2
            rw [updR_ne _ _ _ _ hr2]
            exact hi c r2 h
        · simp only [csA]; exact updT_at ..
        · simp only [csA]; exact updR_at ..
      | some j =>
        have h4 : cs.t2r j = some r := wf1 r j hrt
        have hja : a ≠ j := by
          intro he; rw [he, h4] at hhit; exact Option.noConfusion hhit
        have hfj := addr_fits j (wf3 j r h4)
        have heq := loadTape_spill cs a r q j hhit hq hrt h4 hfj hfits
        refine ⟨r, _, _, heq, ?_, ⟨?_, ?_, ?_, ?_⟩, ?_, ?_, ?_⟩
        · intro ms o
          simp [execMops, ha, wf3 j r h4, hi j r h4, upd_id]
        · -- tables stay inverse: register to cell
          intro r' j' h
          by_cases hr' : r' = r
          · subst hr'
            simp only [csB] at h
            rw [updR_at] at h
            cases h
            exact updT_at ..
          · simp only [csB] at h
            rw [updR_ne _ _ _ _ hr'] at h
            have h2 := wf1 r' j' h
            have hj'a : j' ≠ a := by
              intro he; subst he; rw [hhit] at h2; exact Option.noConfusion h2
            have hj'j : j' ≠ j := by
              intro he; subst he; rw [h4] at h2
              exact hr' (Option.some.inj h2).symm
            simp only [csB]
            rw [updT_ne _ _ _ _ hj'a, updT_ne _ _ _ _ hj'j]
            exact h2
        · -- tables stay inverse: cell to register
          intro c r2 h
          by_cases hc : c = a
          · subst hc
            simp only [csB] at h
            rw [updT_at] at h
            cases h
            exact updR_at ..
          · simp only [csB] at h
            rw [updT_ne _ _ _ _ hc] at h
            by_cases hcj : c = j
            · subst hcj
              rw [updT_at] at h
              exact Option.noConfusion h
            · rw [updT_ne _ _ _ _ hcj] at h
              have h2 := wf2 c r2 h
              have hr2 : r2 ≠ r := by
                intro he; subst he; rw [hrt] at h2
                exact hcj (Option.some.inj h2).symm
              simp only [csB]
              rw [updR_ne _ _ _ _ hr2]
              exact h2
        · -- cached cells stay in range
          intro c r2 h
          by_cases hc : c = a
          · subst hc; exact ha
          · simp only [csB] at h
            rw [updT_ne _ _ _ _ hc] at h
            by_cases hcj : c = j
            · subst hcj; rw [updT_at] at h; exact Option.noConfusion h
            · rw [updT_ne _ _ _ _ hcj] at h
              exact wf3 c r2 h
        · -- every register stays in the queue
          intro r'
          have h2 := wf4 r'
          rw [hq] at h2
          rcases List.mem_cons.1 h2 with he | hm
          · subst he; simp [csB]
          · simp [csB, hm]
        · -- the cache invariant is reestablished
          intro c r2 h
          by_cases hc : c = a
          · subst hc
            simp only [csB] at h
            rw [updT_at] at h
            cases h
            exact updR_at ..
          · simp only [csB] at h
            rw [updT_ne _ _ _ _ hc] at h
            by_cases hcj : c = j
            · subst hcj; rw [updT_at] at h; exact Option.noConfusion h
            · rw [updT_ne _ _ _ _ hcj] at h
              have h2 := wf2 c r2 h
              have hr2 : r2 ≠ r := by
                intro he; subst he; rw [hrt] at h2
                exact hcj (Option.some.inj h2).symm
              rw [updR_ne _ _ _ _ hr2]
              exact hi c r2 h
        · simp only [csB]; exact updT_at ..
        · simp only [csB]; exact updR_at ..

theorem setStep_spec (len i : Nat) (cs : CSt) (T : Word → Word)
    (rg : Reg → Option Word) (op : Op) (hop : straightOk op = true)
    (hw : WF cs) (hi : Inv cs T rg) :
    ∃ blk cs' rg', j2CompOp len i op cs = .ok (blk, cs') ∧
      blk.pre = [] ∧ blk.br = none ∧
      (∀ o, execMops blk.body T rg o = .ok (setTape T op) rg' (setOut T o op)) ∧
      WF cs' ∧ Inv cs' (setTape T op) rg' := by
  cases op with
  | JmpV c d => simp [straightOk] at hop
  | JmpA c d => simp [straightOk] at hop
  | SetV a b =>
    simp only [straightOk, Bool.and_eq_true, decide_eq_true_eq] at hop
    obtain ⟨ha, hb⟩ := hop
    obtain ⟨r, lm, cs1, heq, hexec, hw1, hi1, ht2r, hr2t⟩ :=
      loadTape_spec cs T rg a hw hi ha
    refine ⟨⟨[], lm ++ [.mAddImm r b, .mStore a r] ++
        (if a = 0 then [.mPrint r] else []), none⟩,
      ⟨cs1.t2r, cs1.r2t, cs1.queue, some r⟩,
      updR rg r (some (wadd (T a) b)), ?_, rfl, rfl, ?_, ?_, ?_⟩
    · simp [j2CompOp, heq, hb, addr_fits a ha]
    · intro o
      show execMops (lm ++ [.mAddImm r b, .mStore a r] ++
        (if a = 0 then [.mPrint r] else [])) T rg o = _
      rw [List.append_assoc, hexec]
      by_cases h0 : a = 0
      · subst h0
        simp [execMops, updR_at, updR_updR, setTape, setOut,
          (show (0:Nat) < tapeLen from by decide)]
      · simp [execMops, updR_at, updR_updR, ha, h0, setTape, setOut]
    · exact hw1
    · intro c r2 h
      simp only at h
      by_cases hc : c = a
      · subst hc
        rw [ht2r] at h
        cases h
        rw [updR_at]
        simp [setTape, upd_at]
      · have h2 : r2 ≠ r := by
          intro he; subst he
          have h3 := hw1.2.1 c r2 h
          rw [hr2t] at h3
          exact hc (Option.some.inj h3).symm
        have h3 := hi1 c r2 h
        rw [updR_ne _ _ _ _ h2] at h3
        rw [updR_ne _ _ _ _ h2]
        simp [setTape, upd_ne _ _ _ _ hc]
        exact h3
  | SetA a b =>
    simp only [straightOk, Bool.and_eq_true, decide_eq_true_eq] at hop
    obtain ⟨ha, hb⟩ := hop
    obtain ⟨r, lm, cs1, heq, hexec, hw1, hi1, ht2r, hr2t⟩ :=
      loadTape_spec cs T rg a hw hi ha
    refine ⟨⟨[], lm ++ [.mAddMem r b, .mStore a r] ++
        (if a = 0 then [.mPrint r] else []), none⟩,
      ⟨cs1.t2r, cs1.r2t, cs1.queue, some r⟩,
      updR rg r (some (wadd (T a) (T b))), ?_, rfl, rfl, ?_, ?_, ?_⟩
    · simp [j2CompOp, heq, addr_fits a ha, addr_fits b hb]
    · intro o
      show execMops (lm ++ [.mAddMem r b, .mStore a r] ++
        (if a = 0 then [.mPrint r] else [])) T rg o = _
      rw [List.append_assoc, hexec]
      by_cases h0 : a = 0
      · subst h0
        simp [execMops, updR_at, updR_updR, hb, setTape, setOut,
          (show (0:Nat) < tapeLen from by decide)]
      · simp [execMops, updR_at, updR_updR, ha, hb, h0, setTape, setOut]
    · exact hw1
    · intro c r2 h
      simp only at h
      by_cases hc : c = a
      · subst hc
        rw [ht2r] at h
        cases h
        rw [updR_at]
        simp [setTape, upd_at]
      · have h2 : r2 ≠ r := by
          intro he; subst he
          have h3 := hw1.2.1 c r2 h
          rw [hr2t] at h3
          exact hc (Option.some.inj h3).symm
        have h3 := hi1 c r2 h
        rw [updR_ne _ _ _ _ h2] at h3
        rw [updR_ne _ _ _ _ h2]
        simp [setTape, upd_ne _ _ _ _ hc]
        exact h3

theorem lineRun_cons (op : Op) (rest : List Op) (T : Word → Word) (o : List Word) :
    straightOk op = true →
    lineRun (op :: rest) T o = lineRun rest (setTape T op) (setOut T o op) := by
  intro h
  cases op with
  | SetV a b => rfl
  | SetA a b => rfl
  | JmpV c d => simp [straightOk] at h
  | JmpA c d => simp [straightOk] at h

theorem j2sim (rest : List Op) : ∀ (len i : Nat) (cs : CSt) (T : Word → Word)
    (rg : Reg → Option Word), straightLineOk rest = true → WF cs → Inv cs T rg →
    ∃ bsR cs', j2CompAux len i rest cs = .ok (bsR, cs') ∧
      ∀ (bsAll : List B2) (k : Nat) (o : List Word), bsAll.drop k = bsR →
        j2run bsAll (rest.length + 1) ⟨k, false, T, rg, o⟩ =
          .halted (lineRun rest T o).2 := by
  induction rest with
  | nil =>
    intro len i cs T rg _ _ _
    refine ⟨[], cs, rfl, ?_⟩
    intro bsAll k o hdrop
    have hf := dropNone bsAll k hdrop
    simp [j2run, j2step, hf, lineRun]
  | cons op r ih =>
    intro len i cs T rg hok hw hi
    have hok1 : straightOk op = true := by
      rw [straightLineOk, List.all_cons, Bool.and_eq_true] at hok
      exact hok.1
    have hok2 : straightLineOk r = true := by
      rw [straightLineOk, List.all_cons, Bool.and_eq_true] at hok
      exact hok.2
    obtain ⟨blk, cs1, rg', hcomp, hpre, hbr, hexec, hw1, hi1⟩ :=
      setStep_spec len i cs T rg op hok1 hw hi
    obtain ⟨bs2, cs2, hcomp2, hrun2⟩ := ih len (i + 1) cs1 (setTape T op) rg' hok2 hw1 hi1
    refine ⟨blk :: bs2, cs2, ?_, ?_⟩
    · simp [j2CompAux, hcomp, hcomp2]
    · intro bsAll k o hdrop
      have hf := dropHead bsAll k blk bs2 hdrop
      have hstep : j2step bsAll ⟨k, false, T, rg, o⟩ =
          .next ⟨k + 1, false, setTape T op, rg', setOut T o op⟩ := by
        unfold j2step
        rw [hf]
        simp [hpre, hbr, hexec o]
      show j2run bsAll (r.length + 1 + 1) ⟨k, false, T, rg, o⟩ = _
      rw [j2run_next hstep]
      rw [hrun2 bsAll (k + 1) (setOut T o op) (dropTail bsAll k blk bs2 hdrop)]
      rw [lineRun_cons op r T o hok1]

theorem wadd_comm (x y : Word) : wadd x y = wadd y x := by
  unfold wadd
  rw [Nat.add_comm]

theorem wf_cs0 : WF cs0 := by
  refine ⟨?_, ?_, ?_, ?_⟩
  · intro r i h; exact Option.noConfusion h
  · intro c r h; exact Option.noConfusion h
  · intro c r h; exact Option.noConfusion h
  · intro r; cases r <;> simp [cs0]

theorem inv_cs0 : Inv cs0 zeroTape (fun _ => none) := by
  intro c r h
  exact Option.noConfusion h

theorem interp_line (rest : List Op) : ∀ (p : List Op) (k : Nat) (T : Word → Word)
    (v : Word) (o : List Word), straightLineOk rest = true → p.drop k = rest →
    p.length < W →
    irun p (rest.length + 1) ⟨k, T, v, o⟩ = .halted (lineRun rest T o).2 := by
  induction rest with
  | nil =>
    intro p k T v o _ hdrop _
    have hf := dropNone p k hdrop
    simp [irun, istep, hf, lineRun]
  | cons op r ih =>
    intro p k T v o hok hdrop hlen
    have hok1 : straightOk op = true := by
      rw [straightLineOk, List.all_cons, Bool.and_eq_true] at hok
      exact hok.1
    have hok2 : straightLineOk r = true := by
      rw [straightLineOk, List.all_cons, Bool.and_eq_true] at hok
      exact hok.2
    have hf := dropHead p k op r hdrop
    have hk : k < p.length := fetchLt hf
    have hmod : (k + 1) % W = k + 1 := Nat.mod_eq_of_lt (by omega)
    have hdrop2 := dropTail p k op r hdrop
    cases op with
    | SetV a b =>
      obtain ⟨ha, hb⟩ : a < tapeLen ∧ fitsI32 b = true := by
        simpa [straightOk] using hok1
      have hstep : istep p ⟨k, T, v, o⟩ = .next ⟨k + 1, upd T a (wadd (T a) b),
          wadd (T a) b, if a = 0 then o ++ [wadd (T a) b] else o⟩ := by
        simp [istep, hf, ha, hmod]
      show irun p (r.length + 1 + 1) _ = _
      rw [irun_next hstep, ih p (k + 1) _ _ _ hok2 hdrop2 hlen,
        lineRun_cons _ _ _ _ hok1]
      simp [setTape, setOut]
    | SetA a b =>
      obtain ⟨ha, hb⟩ : a < tapeLen ∧ b < tapeLen := by
        simpa [straightOk] using hok1
      have hstep : istep p ⟨k, T, v, o⟩ = .next ⟨k + 1, upd T a (wadd (T a) (T b)),
          wadd (T a) (T b), if a = 0 then o ++ [wadd (T a) (T b)] else o⟩ := by
        simp [istep, hf, ha, hb, hmod]
      show irun p (r.length + 1 + 1) _ = _
      rw [irun_next hstep, ih p (k + 1) _ _ _ hok2 hdrop2 hlen,
        lineRun_cons _ _ _ _ hok1]
      simp [setTape, setOut]
    | JmpV c d => simp [straightOk] at hok1
    | JmpA c d => simp [straightOk] at hok1

theorem jit_compile_line (p : List Op) : ∀ (len i : Nat), straightLineOk p = true →
    jitCompileAux len i p = .ok (p.map jBlockOf) := by
  induction p with
  | nil => intro len i _; rfl
  | cons op r ih =>
    intro len i hok
    have hok1 : straightOk op = true := by
      rw [straightLineOk, List.all_cons, Bool.and_eq_true] at hok
      exact hok.1
    have hok2 : straightLineOk r = true := by
      rw [straightLineOk, List.all_cons, Bool.and_eq_true] at hok
      exact hok.2
    cases op with
    | SetV a b =>
      obtain ⟨ha, hb⟩ : a < tapeLen ∧ fitsI32 b = true := by
        simpa [straightOk] using hok1
      simp [jitCompileAux, jitCompileOp, addr_fits a ha, ih len (i + 1) hok2, jBlockOf]
    | SetA a b =>
      obtain ⟨ha, hb⟩ : a < tapeLen ∧ b < tapeLen := by
        simpa [straightOk] using hok1
      simp [jitCompileAux, jitCompileOp, addr_fits a ha, addr_fits b hb,
        ih len (i + 1) hok2, jBlockOf]
    | JmpV c d => simp [straightOk] at hok1
    | JmpA c d => simp [straightOk] at hok1

theorem jit_run_line (rest : List Op) : ∀ (p : List Op) (k : Nat) (T : Word → Word)
    (d : Option Word) (o : List Word), straightLineOk rest = true → p.drop k = rest →
    jrun (p.map jBlockOf) (rest.length + 1) ⟨k, T, d, o⟩ =
      .halted (lineRun rest T o).2 := by
  induction rest with
  | nil =>
    intro p k T d o _ hdrop
    have hmap : (p.map jBlockOf).drop k = [] := by
      rw [← List.map_drop, hdrop]
      rfl
    have hf := dropNone (p.map jBlockOf) k hmap
    simp [jrun, jstep, hf, lineRun]
  | cons op r ih =>
    intro p k T d o hok hdrop
    have hok1 : straightOk op = true := by
      rw [straightLineOk, List.all_cons, Bool.and_eq_true] at hok
      exact hok.1
    have hok2 : straightLineOk r = true := by
      rw [straightLineOk, List.all_cons, Bool.and_eq_true] at hok
      exact hok.2
    have hmap : (p.map jBlockOf).drop k = jBlockOf op :: r.map jBlockOf := by
      rw [← List.map_drop, hdrop]
      rfl
    have hf := dropHead (p.map jBlockOf) k (jBlockOf op) (r.map jBlockOf) hmap
    have hdrop2 : p.drop (k + 1) = r := dropTail p k op r hdrop
    cases op with
    | SetV a b =>
      obtain ⟨ha, hb⟩ : a < tapeLen ∧ fitsI32 b = true := by
        simpa [straightOk] using hok1
      have hf2 : (p.map jBlockOf)[k]? = some (.bSetV a b) := hf
      have hstep : jstep (p.map jBlockOf) ⟨k, T, d, o⟩ =
          .next ⟨k + 1, upd T a (wadd b (T a)), if a = 0 then none else some (wadd b (T a)),
            if a = 0 then o ++ [wadd b (T a)] else o⟩ := by
        simp [jstep, hf2, ha]
      show jrun (p.map jBlockOf) (r.length + 1 + 1) _ = _
      rw [jrun_next hstep]
      rw [ih p (k + 1) _ _ _ hok2 hdrop2, lineRun_cons _ _ _ _ hok1]
      simp [setTape, setOut, wadd_comm]
    | SetA a b =>
      obtain ⟨ha, hb⟩ : a < tapeLen ∧ b < tapeLen := by
        simpa [straightOk] using hok1
      have hf2 : (p.map jBlockOf)[k]? = some (.bSetA a b) := hf
      have hstep : jstep (p.map jBlockOf) ⟨k, T, d, o⟩ =
          .next ⟨k + 1, upd T a (wadd (T b) (T a)),
            if a = 0 then none else some (wadd (T b) (T a)),
            if a = 0 then o ++ [wadd (T b) (T a)] else o⟩ := by
        simp [jstep, hf2, ha, hb]
      show jrun (p.map jBlockOf) (r.length + 1 + 1) _ = _
      rw [jrun_next hstep]
      rw [ih p (k + 1) _ _ _ hok2 hdrop2, lineRun_cons _ _ _ _ hok1]
      simp [setTape, setOut, wadd_comm]
    | JmpV c d2 => simp [straightOk] at hok1
    | JmpA c d2 => simp [straightOk] at hok1

/-- C1 counterexample: the program consisting of a set to cell 0 followed
by a branch with displacement 5 has no branch-on-indirect and no
multi-predecessor branch target, yet the interpreter halts with output
call sequence 65 while both compilers panic on the out-of-range label index
for the branch target and so produce no output calls at all. -/
theorem C1_counterexample : ¬ C1Prop := by
  intro h
  have h1 : Produces (interpRun [Op.SetV 0 65, Op.JmpV 1 5]) [65] := ⟨3, by decide⟩
  have h2 : Produces (jitRunE [Op.SetV 0 65, Op.JmpV 1 5]) [] := ⟨0, rfl⟩
  have h3 : Produces (jit2RunE [Op.SetV 0 65, Op.JmpV 1 5]) [] := ⟨0, rfl⟩
  have h4 := h [Op.SetV 0 65, Op.JmpV 1 5] (by decide) (by decide)
    [65] [] [] h1 h2 h3
  simp at h4

/-- C1 (amended): on every straight-line program (set instructions only,
with addresses inside the tape and immediates that fit an `i32`, so that
each engine has well-defined, compilable semantics), the interpreter, the
baseline compiler and the caching compiler all halt with the identical
sequence of output-sink calls. -/
theorem C1_theorem (p : List Op) (hok : straightLineOk p = true)
    (hlen : p.length < W) :
    ∃ o, Produces (interpRun p) o ∧ Produces (jitRunE p) o ∧
      Produces (jit2RunE p) o := by
  refine ⟨(lineRun p zeroTape []).2, ⟨p.length + 1, ?_⟩, ⟨p.length + 1, ?_⟩,
    ⟨p.length + 1, ?_⟩⟩
  · rw [interpRun, interp_line p p 0 zeroTape 0 [] hok (by simp) hlen]
    rfl
  · have hc : jitCompile p = .ok (p.map jBlockOf) := jit_compile_line p p.length 0 hok
    simp only [jitRunE, hc]
    rw [jit_run_line p p 0 zeroTape none [] hok (by simp)]
    rfl
  · obtain ⟨bs, cs', hcomp, hrun⟩ :=
      j2sim p p.length 0 cs0 zeroTape (fun _ => none) hok wf_cs0 inv_cs0
    have hc : j2Compile p = .ok (bs, cs') := hcomp
    simp only [jit2RunE, hc]
    rw [hrun bs 0 [] (by simp)]
    rfl

/-- Witness for C1: the one-instruction program that writes 65 to cell 0. -/
theorem C1_witness :
    ∃ o, Produces (interpRun [Op.SetV 0 65]) o ∧ Produces (jitRunE [Op.SetV 0 65]) o ∧
      Produces (jit2RunE [Op.SetV 0 65]) o :=
  C1_theorem [Op.SetV 0 65] (by decide) (by decide)

theorem exec_noPrint (ms : List MOp) : ∀ (T : Word → Word) (rg : Reg → Option Word)
    (o : List Word) (T' : Word → Word) (rg' : Reg → Option Word) (o' : List Word),
    (∀ m ∈ ms, noPrint m = true) → execMops ms T rg o = .ok T' rg' o' → o' = o := by
  induction ms with
  | nil =>
    intro T rg o T' rg' o' _ h
    cases h
    rfl
  | cons m ms ih =>
    intro T rg o T' rg' o' hall h
    have hm : noPrint m = true := hall m (by simp)
    have hrest : ∀ m2 ∈ ms, noPrint m2 = true := fun m2 hm2 => hall m2 (by simp [hm2])
    cases m with
    | mStore a r =>
      simp only [execMops] at h
      split at h
      · split at h
        · exact ih _ _ _ _ _ _ hrest h
        · exact ERes.noConfusion h
      · exact ERes.noConfusion h
    | mLoad r a =>
      simp only [execMops] at h
      split at h
      · exact ih _ _ _ _ _ _ hrest h
      · exact ERes.noConfusion h
    | mAddImm r b =>
      simp only [execMops] at h
      split at h
      · exact ih _ _ _ _ _ _ hrest h
      · exact ERes.noConfusion h
    | mAddMem r a =>
      simp only [execMops] at h
      split at h
      · split at h
        · exact ih _ _ _ _ _ _ hrest h
        · exact ERes.noConfusion h
      · exact ERes.noConfusion h
    | mPrint r => simp [noPrint] at hm

theorem loadTape_mops_noPrint (t : Word) (s : CSt) (r : Reg) (lm : List MOp)
    (cs1 : CSt) (h : loadTape t s = .ok (r, lm, cs1)) :
    ∀ m ∈ lm, noPrint m = true := by
  unfold loadTape at h
  split at h
  · cases h
    intro m hm
    simp at hm
  · split at h
    · exact Except.noConfusion h
    · split at h
      · split at h
        · split at h
          · split at h
            · cases h
              intro m hm
              rcases List.mem_cons.1 hm with rfl | hm2
              · rfl
              · rcases List.mem_cons.1 hm2 with rfl | hm3
                · rfl
                · simp at hm3
            · exact Except.noConfusion h
          · exact Except.noConfusion h
        · exact Except.noConfusion h
      · split at h
        · cases h
          intro m hm
          rcases List.mem_cons.1 hm with rfl | hm2
          · rfl
          · simp at hm2
        · exact Except.noConfusion h

theorem istep_jmpV_taken (p : List Op) (s : ISt) (c d : Word)
    (hf : p[s.ip]? = some (.JmpV c d)) (hc : ¬(c = s.v)) :
    istep p s = .next ⟨((s.ip + 1) % W + (d + (W - 1)) % W) % W, s.tape, s.v, s.out⟩ := by
  simp [istep, hf, hc]

theorem istep_jmpV_not (p : List Op) (s : ISt) (c d : Word)
    (hf : p[s.ip]? = some (.JmpV c d)) (hc : c = s.v) :
    istep p s = .next ⟨(s.ip + 1) % W, s.tape, s.v, s.out⟩ := by
  simp [istep, hf, hc]

theorem istep_jmpA_taken (p : List Op) (s : ISt) (c d : Word)
    (hf : p[s.ip]? = some (.JmpA c d)) (hc : ¬(c = s.v)) (hd : d < tapeLen) :
    istep p s = .next ⟨((s.ip + 1) % W + (s.tape d + (W - 1)) % W) % W,
      s.tape, s.v, s.out⟩ := by
  simp [istep, hf, hc, hd]

theorem istep_jmpA_ub (p : List Op) (s : ISt) (c d : Word)
    (hf : p[s.ip]? = some (.JmpA c d)) (hc : ¬(c = s.v)) (hd : ¬(d < tapeLen)) :
    istep p s = .ub d s.out := by
  simp [istep, hf, hc, hd]

theorem istep_jmpA_not (p : List Op) (s : ISt) (c d : Word)
    (hf : p[s.ip]? = some (.JmpA c d)) (hc : c = s.v) :
    istep p s = .next ⟨(s.ip + 1) % W, s.tape, s.v, s.out⟩ := by
  simp [istep, hf, hc]

theorem c4_interp_setV0 (p : List Op) (s : ISt) (b : Word)
    (hf : p[s.ip]? = some (.SetV 0 b)) :
    ∃ s', istep p s = .next s' ∧ s'.out = s.out ++ [s'.tape 0] ∧
      s'.tape 0 = wadd (s.tape 0) b := by
  refine ⟨⟨(s.ip + 1) % W, upd s.tape 0 (wadd (s.tape 0) b), wadd (s.tape 0) b,
    s.out ++ [wadd (s.tape 0) b]⟩, ?_, ?_, ?_⟩
  · simp [istep, hf, (show (0:Nat) < tapeLen from by decide)]
  · simp [upd_at]
  · simp [upd_at]

theorem c4_interp_setA0 (p : List Op) (s : ISt) (b : Word) (hb : b < tapeLen)
    (hf : p[s.ip]? = some (.SetA 0 b)) :
    ∃ s', istep p s = .next s' ∧ s'.out = s.out ++ [s'.tape 0] ∧
      s'.tape 0 = wadd (s.tape 0) (s.tape b) := by
  refine ⟨⟨(s.ip + 1) % W, upd s.tape 0 (wadd (s.tape 0) (s.tape b)),
    wadd (s.tape 0) (s.tape b), s.out ++ [wadd (s.tape 0) (s.tape b)]⟩, ?_, ?_, ?_⟩
  · simp [istep, hf, hb, (show (0:Nat) < tapeLen from by decide)]
  · simp [upd_at]
  · simp [upd_at]

theorem c4_interp_setV (p : List Op) (s : ISt) (a b : Word) (ha0 : a ≠ 0)
    (ha : a < tapeLen) (hf : p[s.ip]? = some (.SetV a b)) :
    ∀ s', istep p s = .next s' → s'.out = s.out := by
  intro s' hstep
  rw [show istep p s = .next ⟨(s.ip + 1) % W, upd s.tape a (wadd (s.tape a) b),
      wadd (s.tape a) b, s.out⟩ from by simp [istep, hf, ha, ha0]] at hstep
  cases hstep
  rfl

theorem c4_interp_setA (p : List Op) (s : ISt) (a b : Word) (ha0 : a ≠ 0)
    (ha : a < tapeLen) (hb : b < tapeLen) (hf : p[s.ip]? = some (.SetA a b)) :
    ∀ s', istep p s = .next s' → s'.out = s.out := by
  intro s' hstep
  rw [show istep p s = .next ⟨(s.ip + 1) % W,
      upd s.tape a (wadd (s.tape a) (s.tape b)),
      wadd (s.tape a) (s.tape b), s.out⟩ from by simp [istep, hf, ha, hb, ha0]] at hstep
  cases hstep
  rfl

theorem c4_interp_jmp (p : List Op) (s : ISt) (c d : Word)
    (hf : p[s.ip]? = some (.JmpV c d) ∨ p[s.ip]? = some (.JmpA c d)) :
    ∀ s', istep p s = .next s' → s'.out = s.out := by
  intro s' hstep
  rcases hf with hf | hf
  · by_cases hc : c = s.v
    · rw [istep_jmpV_not p s c d hf hc] at hstep
      cases hstep
      rfl
    · have h2 := (istep_jmpV_taken p s c d hf hc).symm.trans hstep
      injection h2 with h3
      rw [← h3]
  · by_cases hc : c = s.v
    · rw [istep_jmpA_not p s c d hf hc] at hstep
      cases hstep
      rfl
    · by_cases hd : d < tapeLen
      · have h2 := (istep_jmpA_taken p s c d hf hc hd).symm.trans hstep
        injection h2 with h3
        rw [← h3]
      · rw [istep_jmpA_ub p s c d hf hc hd] at hstep
        exact StepRes.noConfusion hstep

theorem c4_jit_setV0 (bs : List JBlock) (s : JSt) (b : Word)
    (hf : bs[s.pc]? = some (.bSetV 0 b)) :
    ∃ s', jstep bs s = .next s' ∧ s'.out = s.out ++ [s'.tape 0] ∧
      s'.tape 0 = wadd b (s.tape 0) := by
  refine ⟨⟨s.pc + 1, upd s.tape 0 (wadd b (s.tape 0)), none,
    s.out ++ [wadd b (s.tape 0)]⟩, ?_, ?_, ?_⟩
  · simp [jstep, hf, (show (0:Nat) < tapeLen from by decide)]
  · simp [upd_at]
  · simp [upd_at]

theorem c4_jit_setA0 (bs : List JBlock) (s : JSt) (b : Word) (hb : b < tapeLen)
    (hf : bs[s.pc]? = some (.bSetA 0 b)) :
    ∃ s', jstep bs s = .next s' ∧ s'.out = s.out ++ [s'.tape 0] ∧
      s'.tape 0 = wadd (s.tape b) (s.tape 0) := by
  refine ⟨⟨s.pc + 1, upd s.tape 0 (wadd (s.tape b) (s.tape 0)), none,
    s.out ++ [wadd (s.tape b) (s.tape 0)]⟩, ?_, ?_, ?_⟩
  · simp [jstep, hf, hb, (show (0:Nat) < tapeLen from by decide)]
  · simp [upd_at]
  · simp [upd_at]

theorem c4_jit_setV (bs : List JBlock) (s : JSt) (a b : Word) (ha0 : a ≠ 0)
    (hf : bs[s.pc]? = some (.bSetV a b)) :
    ∀ s', jstep bs s = .next s' → s'.out = s.out := by
  intro s' hstep
  by_cases ha : a < tapeLen
  · rw [show jstep bs s = .next ⟨s.pc + 1, upd s.tape a (wadd b (s.tape a)),
      some (wadd b (s.tape a)), s.out⟩ from by simp [jstep, hf, ha, ha0]] at hstep
    cases hstep
    rfl
  · rw [show jstep bs s = .ub a s.out from by simp [jstep, hf, ha]] at hstep
    exact JRes.noConfusion hstep

theorem c4_jit_setA (bs : List JBlock) (s : JSt) (a b : Word) (ha0 : a ≠ 0)
    (hf : bs[s.pc]? = some (.bSetA a b)) :
    ∀ s', jstep bs s = .next s' → s'.out = s.out := by
  intro s' hstep
  by_cases hb : b < tapeLen
  · by_cases ha : a < tapeLen
    · rw [show jstep bs s = .next ⟨s.pc + 1, upd s.tape a (wadd (s.tape b) (s.tape a)),
        some (wadd (s.tape b) (s.tape a)), s.out⟩ from by
          simp [jstep, hf, ha, hb, ha0]] at hstep
      cases hstep
      rfl
    · rw [show jstep bs s = .ub a s.out from by simp [jstep, hf, ha, hb]] at hstep
      exact JRes.noConfusion hstep
  · rw [show jstep bs s = .ub b s.out from by simp [jstep, hf, hb]] at hstep
    exact JRes.noConfusion hstep

theorem c4_jit_jmp (bs : List JBlock) (s : JSt) (c : Word) (t : Nat)
    (hf : bs[s.pc]? = some (.bJmp c t)) :
    ∀ s', jstep bs s = .next s' → s'.out = s.out := by
  intro s' hstep
  by_cases hc : c < tapeLen
  · cases hr : s.rdi with
    | none =>
      rw [show jstep bs s = .undef s.out from by simp [jstep, hf, hc, hr]] at hstep
      exact JRes.noConfusion hstep
    | some dv =>
      by_cases hne : dv = s.tape c
      · rw [show jstep bs s = .next ⟨s.pc + 1, s.tape, s.rdi, s.out⟩ from by
          simp [jstep, hf, hc, hr, hne]] at hstep
        cases hstep
        rfl
      · rw [show jstep bs s = .next ⟨t, s.tape, s.rdi, s.out⟩ from by
          simp [jstep, hf, hc, hr, hne]] at hstep
        cases hstep
        rfl
  · rw [show jstep bs s = .ub c s.out from by simp [jstep, hf, hc]] at hstep
    exact JRes.noConfusion hstep

theorem c4_jit2_set (len i : Nat) (op : Op) (cs : CSt) (T : Word → Word)
    (rg : Reg → Option Word) (o : List Word) (hok : straightOk op = true)
    (hw : WF cs) (hi : Inv cs T rg) :
    ∃ blk cs' rg', j2CompOp len i op cs = .ok (blk, cs') ∧
      execMops (blk.pre ++ blk.body) T rg o =
        .ok (setTape T op) rg' (setOut T o op) := by
  obtain ⟨blk, cs', rg', hcomp, hpre, hbr, hexec, _, _⟩ :=
    setStep_spec len i cs T rg op hok hw hi
  exact ⟨blk, cs', rg', hcomp, by rw [hpre]; exact hexec o⟩

theorem c4_jit2_jmp (len i : Nat) (c d : Word) (cs : CSt) (blk : B2) (cs' : CSt)
    (T T' : Word → Word) (rg rg' : Reg → Option Word) (o o' : List Word)
    (hcomp : j2CompOp len i (.JmpV c d) cs = .ok (blk, cs'))
    (hexec : execMops (blk.pre ++ blk.body) T rg o = .ok T' rg' o') : o' = o := by
  simp only [j2CompOp] at hcomp
  cases hload : loadTape c cs with
  | error e =>
    rw [hload] at hcomp
    exact Except.noConfusion hcomp
  | ok trip =>
    obtain ⟨r, lm, cs1⟩ := trip
    rw [hload] at hcomp
    have hcomp2 : (match cs1.lastReg with
        | none => Except.error CErr.noLastReg
        | some lr =>
          if (i + 2 * W - (d + 2)) % W < len then
            Except.ok ((⟨lm, [], some (r, lr, (i + 2 * W - (d + 2)) % W)⟩ : B2), cs1)
          else Except.error CErr.labelOOB) = Except.ok (blk, cs') := hcomp
    cases hlast : cs1.lastReg with
    | none =>
      rw [hlast] at hcomp2
      exact Except.noConfusion hcomp2
    | some lr =>
      rw [hlast] at hcomp2
      have hcomp3 : (if (i + 2 * W - (d + 2)) % W < len then
          Except.ok ((⟨lm, [], some (r, lr, (i + 2 * W - (d + 2)) % W)⟩ : B2), cs1)
          else Except.error CErr.labelOOB) = Except.ok (blk, cs') := hcomp2
      by_cases hlt : (i + 2 * W - (d + 2)) % W < len
      · rw [if_pos hlt] at hcomp3
        cases hcomp3
        refine exec_noPrint _ _ _ _ _ _ _ ?_ hexec
        intro m hm
        simp only [List.append_nil] at hm
        exact loadTape_mops_noPrint c cs _ _ _ hload m hm
      · rw [if_neg hlt] at hcomp3
        exact Except.noConfusion hcomp3

/-- C4: in every engine, a set instruction targeting cell 0 triggers exactly
one output-sink call, whose argument is the freshly committed value of
cell 0 (the tape is updated before the call); set instructions with a
non-zero target and branch instructions trigger no output-sink call. -/
theorem C4_theorem :
    (∀ (p : List Op) (s : ISt) (b : Word), p[s.ip]? = some (.SetV 0 b) →
      ∃ s', istep p s = .next s' ∧ s'.out = s.out ++ [s'.tape 0] ∧
        s'.tape 0 = wadd (s.tape 0) b) ∧
    (∀ (p : List Op) (s : ISt) (b : Word), b < tapeLen →
      p[s.ip]? = some (.SetA 0 b) →
      ∃ s', istep p s = .next s' ∧ s'.out = s.out ++ [s'.tape 0] ∧
        s'.tape 0 = wadd (s.tape 0) (s.tape b)) ∧
    (∀ (p : List Op) (s : ISt) (a b : Word), a ≠ 0 → a < tapeLen →
      p[s.ip]? = some (.SetV a b) →
      ∀ s', istep p s = .next s' → s'.out = s.out) ∧
    (∀ (p : List Op) (s : ISt) (a b : Word), a ≠ 0 → a < tapeLen → b < tapeLen →
      p[s.ip]? = some (.SetA a b) →
      ∀ s', istep p s = .next s' → s'.out = s.out) ∧
    (∀ (p : List Op) (s : ISt) (c d : Word),
      p[s.ip]? = some (.JmpV c d) ∨ p[s.ip]? = some (.JmpA c d) →
      ∀ s', istep p s = .next s' → s'.out = s.out) ∧
    (∀ (bs : List JBlock) (s : JSt) (b : Word), bs[s.pc]? = some (.bSetV 0 b) →
      ∃ s', jstep bs s = .next s' ∧ s'.out = s.out ++ [s'.tape 0] ∧
        s'.tape 0 = wadd b (s.tape 0)) ∧
    (∀ (bs : List JBlock) (s : JSt) (b : Word), b < tapeLen →
      bs[s.pc]? = some (.bSetA 0 b) →
      ∃ s', jstep bs s = .next s' ∧ s'.out = s.out ++ [s'.tape 0] ∧
        s'.tape 0 = wadd (s.tape b) (s.tape 0)) ∧
    (∀ (bs : List JBlock) (s : JSt) (a b : Word), a ≠ 0 →
      bs[s.pc]? = some (.bSetV a b) →
      ∀ s', jstep bs s = .next s' → s'.out = s.out) ∧
    (∀ (bs : List JBlock) (s : JSt) (a b : Word), a ≠ 0 →
      bs[s.pc]? = some (.bSetA a b) →
      ∀ s', jstep bs s = .next s' → s'.out = s.out) ∧
    (∀ (bs : List JBlock) (s : JSt) (c : Word) (t : Nat),
      bs[s.pc]? = some (.bJmp c t) →
      ∀ s', jstep bs s = .next s' → s'.out = s.out) ∧
    (∀ (len i : Nat) (op : Op) (cs : CSt) (T : Word → Word)
      (rg : Reg → Option Word) (o : List Word), straightOk op = true → WF cs →
      Inv cs T rg →
      ∃ blk cs' rg', j2CompOp len i op cs = .ok (blk, cs') ∧
        execMops (blk.pre ++ blk.body) T rg o =
          .ok (setTape T op) rg' (setOut T o op)) ∧
    (∀ (len i : Nat) (c d : Word) (cs : CSt) (blk : B2) (cs' : CSt)
      (T T' : Word → Word) (rg rg' : Reg → Option Word) (o o' : List Word),
      j2CompOp len i (.JmpV c d) cs = .ok (blk, cs') →
      execMops (blk.pre ++ blk.body) T rg o = .ok T' rg' o' → o' = o) :=
  ⟨c4_interp_setV0, fun p s b hb hf => c4_interp_setA0 p s b hb hf,
   fun p s a b ha0 ha hf => c4_interp_setV p s a b ha0 ha hf,
   fun p s a b ha0 ha hb hf => c4_interp_setA p s a b ha0 ha hb hf,
   fun p s c d hf => c4_interp_jmp p s c d hf,
   c4_jit_setV0, fun bs s b hb hf => c4_jit_setA0 bs s b hb hf,
   fun bs s a b ha0 hf => c4_jit_setV bs s a b ha0 hf,
   fun bs s a b ha0 hf => c4_jit_setA bs s a b ha0 hf,
   fun bs s c t hf => c4_jit_jmp bs s c t hf,
   fun len i op cs T rg o hok hw hi => c4_jit2_set len i op cs T rg o hok hw hi,
   fun len i c d cs blk cs2 T T2 rg rg2 o o2 hcomp hexec =>
     c4_jit2_jmp len i c d cs blk cs2 T T2 rg rg2 o o2 hcomp hexec⟩

/-- Witness for C4: a concrete write to cell 0 in the interpreter and in the
baseline compiler's code, and a concrete write to a non-zero cell. -/
theorem C4_witness :
    (∃ s', istep [Op.SetV 0 7] ⟨0, zeroTape, 0, []⟩ = .next s' ∧
      s'.out = [] ++ [s'.tape 0] ∧ s'.tape 0 = wadd (zeroTape 0) 7) ∧
    (∃ s', jstep [JBlock.bSetV 0 7] ⟨0, zeroTape, none, []⟩ = .next s' ∧
      s'.out = [] ++ [s'.tape 0] ∧ s'.tape 0 = wadd 7 (zeroTape 0)) :=
  ⟨C4_theorem.1 [Op.SetV 0 7] ⟨0, zeroTape, 0, []⟩ 7 (by decide),
   C4_theorem.2.2.2.2.2.1 [JBlock.bSetV 0 7] ⟨0, zeroTape, none, []⟩ 7 (by decide)⟩

/-- Witness for C7: the six cells 1 to 6. -/
theorem C7_witness :
    ∃ s1 s2 s3 s4 s5 s6,
      loadTape 1 cs0 = .ok (.r12, [.mLoad .r12 1], s1) ∧
      loadTape 2 s1 = .ok (.r13, [.mLoad .r13 2], s2) ∧
      loadTape 3 s2 = .ok (.r14, [.mLoad .r14 3], s3) ∧
      loadTape 4 s3 = .ok (.r15, [.mLoad .r15 4], s4) ∧
      loadTape 5 s4 = .ok (.rbp, [.mLoad .rbp 5], s5) ∧
      loadTape 6 s5 = .ok (.r12, [.mStore 1 .r12, .mLoad .r12 6], s6) ∧
      s6.t2r 1 = none ∧ s6.t2r 6 = some .r12 :=
  C7_theorem.2 1 2 3 4 5 6 (by decide) (by decide) (by decide) (by decide)
    (by decide) (by decide) (by decide) (by decide) (by decide) (by decide)
    (by decide) (by decide) (by decide) (by decide) (by decide) (by decide)
    (by decide) (by decide) (by decide) (by decide) (by decide)

theorem wrap3_ne5 (m : Nat) (hm : m < k0) : (3 * m) % W ≠ 5 := by
  intro h
  rcases Nat.lt_or_ge (3 * m) W with h1 | h1
  · rw [Nat.mod_eq_of_lt h1] at h
    omega
  · have hm' : m < 6148914691236517207 := hm
    have hW : W = 18446744073709551616 := rfl
    have h2 : 3 * m - W < W := by omega
    rw [Nat.mod_eq_sub_mod h1, Nat.mod_eq_of_lt h2] at h
    omega

theorem wadd3 (k : Nat) : wadd ((3 * k) % W) 3 = (3 * (k + 1)) % W := by
  unfold wadd
  rw [Nat.mod_add_mod]
  have h3 : 3 * k + 3 = 3 * (k + 1) := by ring
  rw [h3]

theorem c8_step1 (k : Nat) :
    istep p8 (loopSt k) = .next ⟨(0 + 1) % W,
      upd zeroTape 5 ((3 * (k + 1)) % W), (3 * (k + 1)) % W, []⟩ := by
  have h0 : istep p8 (loopSt k) = .next ⟨(0 + 1) % W,
      upd (upd zeroTape 5 ((3 * k) % W)) 5 (wadd ((3 * k) % W) 3),
      wadd ((3 * k) % W) 3, []⟩ := rfl
  rw [h0, wadd3, upd_upd]

theorem c8_step2_taken (k : Nat) (h5 : (5 : Nat) ≠ (3 * (k + 1)) % W) :
    istep p8 ⟨(0 + 1) % W, upd zeroTape 5 ((3 * (k + 1)) % W),
      (3 * (k + 1)) % W, []⟩ = .next (loopSt (k + 1)) := by
  have h := istep_jmpV_taken p8 ⟨(0 + 1) % W, upd zeroTape 5 ((3 * (k + 1)) % W),
    (3 * (k + 1)) % W, []⟩ 5 (W - 1) rfl h5
  rw [h]
  rw [show ((((0 : Word) + 1) % W + 1) % W + ((W - 1) + (W - 1)) % W) % W = 0 from
    by decide]
  rfl

set_option maxRecDepth 4096 in
theorem c8_final : irun p8 3 (loopSt (k0 - 1)) = .halted [] := by
  have e1 : istep p8 (loopSt (k0 - 1)) =
      .next ⟨1, upd (upd zeroTape 5 2) 5 5, 5, []⟩ := rfl
  have e2 : istep p8 ⟨1, upd (upd zeroTape 5 2) 5 5, 5, []⟩ =
      .next ⟨2, upd (upd zeroTape 5 2) 5 5, 5, []⟩ := rfl
  have e3 : istep p8 ⟨2, upd (upd zeroTape 5 2) 5 5, 5, []⟩ = .halt [] := rfl
  rw [irun_next e1, irun_next e2]
  simp [irun, e3]

theorem c8_loop : ∀ (j k : Nat), 1 ≤ k → k + j = k0 - 1 →
    irun p8 (2 * j + 3) (loopSt k) = .halted [] := by
  intro j
  induction j with
  | zero =>
    intro k _ hk
    have hke : k = k0 - 1 := by omega
    subst hke
    exact c8_final
  | succ m ih =>
    intro k hk1 hk
    have hlt : k + 1 < k0 := by
      have h1 : (1 : Nat) ≤ k0 := by decide
      omega
    have h5 : (5 : Nat) ≠ (3 * (k + 1)) % W := Ne.symm (wrap3_ne5 (k + 1) hlt)
    have e1 := c8_step1 k
    have e2 := c8_step2_taken k h5
    have fuel : 2 * (m + 1) + 3 = 2 * m + 3 + 1 + 1 := by ring
    rw [fuel, irun_next e1, irun_next e2]
    exact ih (k + 1) (by omega) (by omega)

theorem c8_start (n : Nat) :
    irun p8 (n + 2) ⟨0, zeroTape, 0, []⟩ = irun p8 n (loopSt 1) := by
  have e1 : istep p8 ⟨0, zeroTape, 0, []⟩ = .next ⟨1, upd zeroTape 5 3, 3, []⟩ := rfl
  have e2 : istep p8 ⟨1, upd zeroTape 5 3, 3, []⟩ = .next (loopSt 1) := rfl
  rw [irun_next e1, irun_next e2]

/-- C8: the two-instruction program parsed from the concatenated fragments
(set cell 5 plus 3, then branch with comparison operand 5 and displacement
minus 1) halts in the interpreter: after `2 * k0 + 1` loop steps, where
`k0` is the unique iteration count at which the wrapping 64-bit cell
arithmetic makes cell 5 hold exactly 5, the branch falls through, the
instruction pointer leaves the program, and the run halts with no output
calls. -/
theorem C8_theorem :
    parse bytes8 = p8 ∧ interpRun p8 12297829382473034415 = .halted [] := by
  constructor
  · decide
  · rw [interpRun]
    rw [show (12297829382473034415 : Nat) = 12297829382473034413 + 2 from by norm_num,
      c8_start 12297829382473034413]
    rw [show (12297829382473034413 : Nat) = 2 * 6148914691236517205 + 3 from by norm_num]
    exact c8_loop 6148914691236517205 1 (by decide) (by decide)

end Tick
